import Mathlib

/-!
Verification development for `mm.c`, an implicit-free-list dynamic memory
allocator with boundary tags, first-fit search, block splitting and eager
boundary-tag coalescing.

The heap is modelled as byte-addressable memory `Mem := Nat → Nat` (each
address holds one byte), the heap region starting at address 0 exactly as
the C code views the region handed out by the platform growth primitive.
`GET`/`PUT` are the 4-byte little-endian word accessors of mm.c; a stored
word therefore always reads back below `2 ^ 32`.  `size_t` arithmetic is
64-bit, so sums and differences that can wrap are taken modulo `2 ^ 64`.
C's `NULL` is modelled with `Option Nat`.
-/

namespace MM

/-- Byte-addressable memory: the heap region, starting at address 0. -/
abbrev Mem := Nat → Nat

/-- Read one byte. -/
def get8 (m : Mem) (p : Nat) : Nat := m p % 256

/-- Write one byte. -/
def put8 (m : Mem) (p v : Nat) : Mem := fun q => if q = p then v % 256 else m q

/-- `GET(p)`: read the 4-byte word at `p` (little endian). -/
def GET (m : Mem) (p : Nat) : Nat :=
  get8 m p + 256 * get8 m (p + 1) + 65536 * get8 m (p + 2) + 16777216 * get8 m (p + 3)

/-- `PUT(p, val)`: store the low 32 bits of `val` at `p` (little endian). -/
def PUT (m : Mem) (p v : Nat) : Mem :=
  put8 (put8 (put8 (put8 m p v) (p + 1) (v / 256)) (p + 2) (v / 65536)) (p + 3) (v / 16777216)

/-- `PACK(size, alloc) = (size) | (alloc)`. -/
def PACK (size alloc : Nat) : Nat := size ||| alloc

/-- `GET_SIZE(p) = GET(p) & ~0x7`; `~0x7` as a 32-bit word is `0xFFFFFFF8`. -/
def GET_SIZE (m : Mem) (p : Nat) : Nat := GET m p &&& 0xFFFFFFF8

/-- `GET_ALLOC(p) = GET(p) & 0x1`. -/
def GET_ALLOC (m : Mem) (p : Nat) : Nat := GET m p &&& 0x1

/-- `HDRP(bp) = bp - WSIZE`. -/
def HDRP (bp : Nat) : Nat := bp - 4

/-- `FTRP(bp) = bp + GET_SIZE(HDRP(bp)) - DSIZE`. -/
def FTRP (m : Mem) (bp : Nat) : Nat := bp + GET_SIZE m (HDRP bp) - 8

/-- `NEXT_BLKP(bp) = bp + GET_SIZE(bp - WSIZE)`. -/
def NEXT_BLKP (m : Mem) (bp : Nat) : Nat := bp + GET_SIZE m (HDRP bp)

/-- `PREV_BLKP(bp) = bp - GET_SIZE(bp - DSIZE)`. -/
def PREV_BLKP (m : Mem) (bp : Nat) : Nat := bp - GET_SIZE m (bp - 8)

/-- 64-bit unsigned (`size_t`) subtraction `x - y`. -/
def sub64 (x y : Nat) : Nat := (x + 2 ^ 64 - y % 2 ^ 64) % 2 ^ 64

/-- Allocator state: the heap bytes, the current break (heap size in
bytes), the platform's maximum heap size, and the global `heap_listp`. -/
structure AState where
  mem : Mem
  brk : Nat
  maxHeap : Nat
  heap_listp : Nat

/-- Modelled from the spec: the platform growth primitive (`mem_sbrk` of
`memlib.c`, which is not part of `src/`).  Per §6 of the spec it "grows
the heap by N bytes, returning a pointer to the start of the new region,
or a failure sentinel", over "a monotonic, non-shrinking virtual region
with an implementation-defined maximum size" (`maxHeap`; a word-sized
bound on the reference platform).  The bytes of the new region keep
whatever (unspecified) contents they had. -/
def mem_sbrk (st : AState) (incr : Nat) : Option (Nat × AState) :=
  if st.brk + incr ≤ st.maxHeap then
    some (st.brk, { st with brk := st.brk + incr })
  else none

/-- `coalesce(bp)` (mm.c lines 151-183): boundary-tag coalescing of `bp`
with its free neighbours.  Returns the resulting block pointer and the
resulting memory; the four branches and the evaluation order of every
address computation follow the C statement by statement. -/
def coalesce (m : Mem) (bp : Nat) : Nat × Mem :=
  let prev_alloc := GET_ALLOC m (FTRP m (PREV_BLKP m bp))
  let next_alloc := GET_ALLOC m (HDRP (NEXT_BLKP m bp))
  let size := GET_SIZE m (HDRP bp)
  if prev_alloc ≠ 0 ∧ next_alloc ≠ 0 then
    (bp, m)
  else if prev_alloc ≠ 0 ∧ next_alloc = 0 then
    let size := size + GET_SIZE m (HDRP (NEXT_BLKP m bp))
    let m1 := PUT m (HDRP bp) (PACK size 0)
    let m2 := PUT m1 (FTRP m1 bp) (PACK size 0)
    (bp, m2)
  else if prev_alloc = 0 ∧ next_alloc ≠ 0 then
    let size := size + GET_SIZE m (HDRP (PREV_BLKP m bp))
    let m1 := PUT m (FTRP m bp) (PACK size 0)
    let m2 := PUT m1 (HDRP (PREV_BLKP m1 bp)) (PACK size 0)
    (PREV_BLKP m2 bp, m2)
  else
    let size := size + GET_SIZE m (HDRP (PREV_BLKP m bp)) +
      GET_SIZE m (FTRP m (NEXT_BLKP m bp))
    let m1 := PUT m (HDRP (PREV_BLKP m bp)) (PACK size 0)
    let m2 := PUT m1 (FTRP m1 (NEXT_BLKP m1 bp)) (PACK size 0)
    (PREV_BLKP m2 bp, m2)

/-- The byte count `extend_heap` requests: `words` rounded up to an even
word count, times `WSIZE = 4` (a `size_t` product, hence the modulus). -/
def roundWords (words : Nat) : Nat :=
  (if words % 2 = 1 then (words + 1) * 4 else words * 4) % 2 ^ 64

/-- `extend_heap(words)` (mm.c lines 120-139): round `words` up to even,
grow the heap, lay down the new free block's tags and the new epilogue
header, then coalesce with a free block that ended the heap. -/
def extend_heap (st : AState) (words : Nat) : Option (Nat × AState) :=
  let size := roundWords words
  match mem_sbrk st size with
  | none => none
  | some (bp, st1) =>
    let m1 := PUT st1.mem (HDRP bp) (PACK size 0)
    let m2 := PUT m1 (FTRP m1 bp) (PACK size 0)
    let m3 := PUT m2 (HDRP (NEXT_BLKP m2 bp)) (PACK 0 1)
    let r := coalesce m3 bp
    some (r.1, { st1 with mem := r.2 })

/-- One step of the `find_fit` scan.  The C `for` loop terminates because
every block's encoded size is positive on a consistent heap; `fuel` only
bounds the recursion depth and is chosen large enough (`st.brk + 1`) that
it never runs out on a consistent heap. -/
def find_fit_loop (m : Mem) (asize bp : Nat) : Nat → Option Nat
  | 0 => none
  | fuel + 1 =>
    if 0 < GET_SIZE m (HDRP bp) then
      if GET_ALLOC m (HDRP bp) = 0 ∧ asize ≤ GET_SIZE m (HDRP bp) then some bp
      else find_fit_loop m asize (NEXT_BLKP m bp) fuel
    else none

/-- `find_fit(asize)` (mm.c lines 292-304): first-fit scan from
`heap_listp` to the epilogue (encoded size 0). -/
def find_fit (st : AState) (asize : Nat) : Option Nat :=
  find_fit_loop st.mem asize st.heap_listp (st.brk + 1)

/-- `place(bp, asize)` (mm.c lines 315-337): allocate `asize` bytes inside
the free block `bp`, splitting when the remainder reaches the minimum
block size `2 * DSIZE = 16`.  The `csize - asize` comparison is `size_t`
arithmetic, hence `sub64`. -/
def place (m : Mem) (bp asize : Nat) : Mem :=
  let csize := GET_SIZE m (HDRP bp)
  if 2 * 8 ≤ sub64 csize asize then
    let m1 := PUT m (HDRP bp) (PACK asize 1)
    let m2 := PUT m1 (FTRP m1 bp) (PACK asize 1)
    let bp2 := NEXT_BLKP m2 bp
    let m3 := PUT m2 (HDRP bp2) (PACK (sub64 csize asize) 0)
    PUT m3 (FTRP m3 bp2) (PACK (sub64 csize asize) 0)
  else
    let m1 := PUT m (HDRP bp) (PACK csize 1)
    PUT m1 (FTRP m1 bp) (PACK csize 1)

/-- The adjusted block size of `mm_malloc` (mm.c lines 204-209): the
minimum block size `2 * DSIZE = 16` for requests of at most `DSIZE = 8`
bytes, otherwise the request plus the 8 tag bytes rounded up to a
multiple of 8 — computed in `size_t`, so the sum wraps modulo `2 ^ 64`. -/
def asizeOf (size : Nat) : Nat :=
  if size ≤ 8 then 2 * 8 else 8 * (((size + 8 + (8 - 1)) % 2 ^ 64) / 8)

/-- `mm_malloc(size)` (mm.c lines 194-223).  Returns the payload pointer
(`none` models `NULL`) and the updated state.  `size` is a `size_t`
value; the adjusted-size computation wraps modulo `2 ^ 64` as in C. -/
def mm_malloc (st : AState) (size : Nat) : Option Nat × AState :=
  if size = 0 then (none, st)
  else
    let asize := asizeOf size
    match find_fit st asize with
    | some bp => (some bp, { st with mem := place st.mem bp asize })
    | none =>
      let extendsize := max asize 4096
      match extend_heap st (extendsize / 4) with
      | none => (none, st)
      | some (bp, st1) => (some bp, { st1 with mem := place st1.mem bp asize })

/-- `mm_free(ptr)` (mm.c lines 233-243): clear the allocation bit on both
tags, then coalesce. -/
def mm_free (st : AState) (ptr : Nat) : AState :=
  let size := GET_SIZE st.mem (HDRP ptr)
  let m1 := PUT st.mem (HDRP ptr) (PACK size 0)
  let m2 := PUT m1 (FTRP m1 ptr) (PACK size 0)
  { st with mem := (coalesce m2 ptr).2 }

/-- `memcpy(dst, src, n)` for the non-overlapping copy in `mm_realloc`:
byte `dst + i` receives byte `src + i` of the source memory, `i < n`. -/
def memcpyBytes (m : Mem) (dst src : Nat) : Nat → Mem
  | 0 => m
  | n + 1 => put8 (memcpyBytes m dst src n) (dst + n) (get8 m (src + n))

/-- `mm_realloc(ptr, size)` (mm.c lines 253-282): `NULL` pointer behaves
as `mm_malloc`; `size == 0` behaves as `mm_free` returning `NULL`;
otherwise allocate, copy `min(size, old block size - DSIZE)` payload
bytes (a `size_t` subtraction), free the old block. -/
def mm_realloc (st : AState) (ptr : Option Nat) (size : Nat) : Option Nat × AState :=
  match ptr with
  | none => mm_malloc st size
  | some oldptr =>
    if size = 0 then (none, mm_free st oldptr)
    else
      match mm_malloc st size with
      | (none, st1) => (none, st1)
      | (some newptr, st1) =>
        let copySize := sub64 (GET_SIZE st1.mem (HDRP oldptr)) 8
        let copySize := if size < copySize then size else copySize
        let m2 := memcpyBytes st1.mem newptr oldptr copySize
        (some newptr, mm_free { st1 with mem := m2 } oldptr)

/-- `mm_init()` (mm.c lines 92-112): padding word, prologue header and
footer `PACK(8, 1)`, epilogue header `PACK(0, 1)`, advance `heap_listp`
to the prologue payload, then grow by `CHUNKSIZE` bytes.  `none` models
the `-1` failure return. -/
def mm_init (st : AState) : Option AState :=
  match mem_sbrk st (4 * 4) with
  | none => none
  | some (p, st1) =>
    let m0 := PUT st1.mem p 0
    let m1 := PUT m0 (p + 4) (PACK 8 1)
    let m2 := PUT m1 (p + 8) (PACK 8 1)
    let m3 := PUT m2 (p + 12) (PACK 0 1)
    let st2 := { st1 with mem := m3, heap_listp := p + 2 * 4 }
    match extend_heap st2 (4096 / 4) with
    | none => none
    | some (_, st3) => some st3

/-- A fresh process state: empty heap (break 0) over arbitrary memory
contents `f`, with platform heap limit `mh`. -/
def initState (f : Nat → Nat) (mh : Nat) : AState :=
  { mem := f, brk := 0, maxHeap := mh, heap_listp := 0 }

/-- Read the implicit block list by walking headers from payload address
`bp` exactly as `find_fit` does, recording `(payload address, size,
allocated)` and stopping at a zero-size header (the epilogue) or past
`bound`. -/
def parseBlocks (m : Mem) (bound : Nat) : Nat → Nat → List (Nat × Nat × Bool)
  | _, 0 => []
  | bp, fuel + 1 =>
    if bound < bp then []
    else if GET_SIZE m (HDRP bp) = 0 then []
    else
      (bp, GET_SIZE m (HDRP bp), GET_ALLOC m (HDRP bp) = 1) ::
        parseBlocks m bound (NEXT_BLKP m bp) fuel

/-- `true` when no two consecutive parsed blocks are both free. -/
def noAdjFreeB : List (Nat × Nat × Bool) → Bool
  | (_, _, a) :: (q, s, b) :: l => (a || b) && noAdjFreeB ((q, s, b) :: l)
  | _ => true

/-- Abstract view of one block: total size and allocation bit. -/
structure Blk where
  size : Nat
  alloc : Bool
deriving DecidableEq, Repr

/-- The word both boundary tags of `b` hold: `PACK(size, alloc)`. -/
def hdrVal (b : Blk) : Nat := b.size + (if b.alloc then 1 else 0)

/-- Total byte size of a block list. -/
def sumSizes (bl : List Blk) : Nat := (bl.map Blk.size).sum

/-- `reprSeg m a bl`: starting at payload address `a`, memory `m`
represents the consecutive blocks `bl`: each block's size is a positive
multiple of 8 (at least the 8 bytes of its own two tags) and its header
(at `a - 4`) and footer (at `a + size - 8`) both hold `PACK(size,
alloc)`. -/
def reprSeg (m : Mem) : Nat → List Blk → Prop
  | _, [] => True
  | a, b :: bl =>
    8 ≤ b.size ∧ b.size % 8 = 0 ∧ GET m (a - 4) = hdrVal b ∧
      GET m (a + b.size - 8) = hdrVal b ∧ reprSeg m (a + b.size) bl

instance reprSegDecidable (m : Mem) : (a : Nat) → (bl : List Blk) → Decidable (reprSeg m a bl)
  | _, [] => isTrue trivial
  | a, b :: bl =>
    haveI : Decidable (reprSeg m (a + b.size) bl) := reprSegDecidable m (a + b.size) bl
    inferInstanceAs (Decidable (8 ≤ b.size ∧ b.size % 8 = 0 ∧ GET m (a - 4) = hdrVal b ∧
      GET m (a + b.size - 8) = hdrVal b ∧ reprSeg m (a + b.size) bl))

/-- The heap invariants of spec §3 relative to an abstract block list:
`heap_listp` sits at the prologue payload (address 8), the prologue's two
tags read `PACK(8, 1) = 9`, the real blocks `bl` start at payload address
16, the epilogue header `PACK(0, 1) = 1` fills the last word below `brk`,
and the break is within the platform's word-sized bound. -/
def wf (st : AState) (bl : List Blk) : Prop :=
  st.heap_listp = 8 ∧
  GET st.mem 4 = 9 ∧
  GET st.mem 8 = 9 ∧
  reprSeg st.mem 16 bl ∧
  GET st.mem (12 + sumSizes bl) = 1 ∧
  st.brk = 16 + sumSizes bl ∧
  st.brk ≤ st.maxHeap ∧
  st.maxHeap < 2 ^ 32

instance (st : AState) (bl : List Blk) : Decidable (wf st bl) :=
  inferInstanceAs (Decidable (st.heap_listp = 8 ∧ GET st.mem 4 = 9 ∧ GET st.mem 8 = 9 ∧
    reprSeg st.mem 16 bl ∧ GET st.mem (12 + sumSizes bl) = 1 ∧ st.brk = 16 + sumSizes bl ∧
    st.brk ≤ st.maxHeap ∧ st.maxHeap < 2 ^ 32))

/-! ### Concrete heaps used for counterexamples and witnesses

`heapA` is the heap right after `mm_init` succeeds with a platform limit
of exactly one initial chunk (padding + sentinels + 4096 bytes): a single
free block of size 4096 at payload address 16.  `heapB` through `heapE`
replay spec §8, Scenario D: two 16-byte allocations and two releases. -/

def heap0 : AState := initState (fun _ => 0) 4112

def heapA : AState := (mm_init heap0).getD heap0

def heapB : AState := (mm_malloc heapA 16).2

def heapC : AState := (mm_malloc heapB 16).2

def heapD : AState := mm_free heapC 16

def heapE : AState := mm_free heapD 40

/-- Heap contents for the reallocate counterexample: the caller stored the
bytes `0,0,0,0,16,0,0,0` in its 8-byte payload at addresses 16-23, and the
(never-written) bytes at 52-55 happen to read as the word 16.  Everything
the allocator itself wrote overrides this function, so these are ordinary
user payload bytes plus uninitialised heap bytes. -/
def payloadBytes : Mem := fun a => if a = 20 then 16 else if a = 52 then 16 else 0

def heapX0 : AState := initState payloadBytes 4112

def heapX1 : AState := (mm_malloc ((mm_init heapX0).getD heapX0) 8).2

def heapX2 : AState := (mm_realloc heapX1 (some 16) (2 ^ 64 - 1)).2

/-! ### Failure atomicity (claim C7) -/

/-- Every `NULL` return of `mm_malloc` leaves the state untouched. -/
theorem malloc_fail_state : ∀ st size, (mm_malloc st size).1 = none →
    (mm_malloc st size).2 = st := by
  intro st size h
  by_cases h0 : size = 0
  · simp only [mm_malloc, if_pos h0]
  · simp only [mm_malloc, if_neg h0] at h ⊢
    cases hf : find_fit st (asizeOf size) with
    | some bp => rw [hf] at h; simp at h
    | none =>
      cases he : extend_heap st (max (asizeOf size) 4096 / 4) with
      | none => rfl
      | some r =>
        obtain ⟨bp, st1⟩ := r
        rw [hf, he] at h
        simp at h

/-- `mm_malloc 0` is the invalid request: `NULL`, nothing mutated. -/
theorem malloc_zero : ∀ st, mm_malloc st 0 = (none, st) := fun _ => rfl

/-- When the scan misses and the growth primitive refuses the requested
bytes, `mm_malloc` returns `NULL` with the state untouched. -/
theorem malloc_growth_fail (st : AState) (size : Nat) (h0 : size ≠ 0)
    (hf : find_fit st (asizeOf size) = none)
    (hs : mem_sbrk st (roundWords (max (asizeOf size) 4096 / 4)) = none) :
    mm_malloc st size = (none, st) := by
  simp only [mm_malloc, if_neg h0, hf, extend_heap, hs]

/-- Every `NULL` return of `mm_realloc` with a non-null pointer and a
non-zero size leaves the state untouched. -/
theorem realloc_fail_state : ∀ st p size, size ≠ 0 →
    (mm_realloc st (some p) size).1 = none → (mm_realloc st (some p) size).2 = st := by
  intro st p size h0 h
  simp only [mm_realloc, if_neg h0] at h ⊢
  cases hm : mm_malloc st size with
  | mk r st1 =>
    cases r with
    | none =>
      show st1 = st
      have h2 : (mm_malloc st size).1 = none := by rw [hm]
      have h3 := malloc_fail_state st size h2
      rw [hm] at h3
      exact h3
    | some np => rw [hm] at h; simp at h

/-- Claim C7: whenever the heap-growth primitive fails, `allocate` (and
`reallocate`, and `allocate(0)` as the invalid request) returns null and
the heap state — memory, break, bounds — is exactly as before the failed
call.  Part 1: any null return of `mm_malloc` leaves the state untouched
(this covers every failure, since the only failure point is `mem_sbrk`).
Part 2: explicitly, when the fit scan misses and `mem_sbrk` refuses the
extension bytes, `mm_malloc` returns `(NULL, unchanged state)`.  Part 3:
the same for every null return of `mm_realloc` with non-zero size (its
only failure is the inner `mm_malloc`, before any mutation).  Part 4:
`allocate(0)` returns null with the state untouched. -/
theorem growth_failure_is_atomic :
    (∀ st size, (mm_malloc st size).1 = none → (mm_malloc st size).2 = st) ∧
    (∀ st size, size ≠ 0 → find_fit st (asizeOf size) = none →
      mem_sbrk st (roundWords (max (asizeOf size) 4096 / 4)) = none →
      mm_malloc st size = (none, st)) ∧
    (∀ st p size, size ≠ 0 → (mm_realloc st (some p) size).1 = none →
      (mm_realloc st (some p) size).2 = st) ∧
    (∀ st, mm_malloc st 0 = (none, st)) :=
  ⟨malloc_fail_state, fun st size h0 hf hs => malloc_growth_fail st size h0 hf hs,
    realloc_fail_state, malloc_zero⟩

/-- Witness for claim C7 on concrete heaps: `allocate(4091)` on the full
`heapA` fails (the free block holds 4096 < 4104 = asize bytes and the
platform refuses 4104 more) leaving `heapA` intact, and
`reallocate(p1, 4080)` on `heapB` fails leaving `heapB` intact. -/
theorem growth_failure_is_atomic_witness :
    (mm_malloc heapA 4091).2 = heapA ∧
    mm_malloc heapA 4091 = (none, heapA) ∧
    (mm_realloc heapB (some 16) 4080).2 = heapB :=
  ⟨growth_failure_is_atomic.1 heapA 4091 rfl,
    growth_failure_is_atomic.2.1 heapA 4091 (by decide) rfl rfl,
    growth_failure_is_atomic.2.2.1 heapB 16 4080 (by decide) rfl⟩

/-! ### Concrete counterexamples -/

/-- Claim C1, counterexample.  `allocate(4080)` on the freshly initialised
`heapA`: the adjusted size is `asize = roundUpTo8(4080 + 8) = 4088`, the
only free block has size 4096, and since the remainder `4096 - 4088 = 8`
is below the minimum block size 16, `place` allocates the whole block:
its header and footer encode size 4096, not `asize = 4088`.  (The claim's
other conjuncts hold here: tags agree, `allocated`, `4096 ≥ 4080 + 8`.) -/
theorem malloc_asize_exact_counterexample :
    (mm_malloc heapA 4080).1 = some 16 ∧
    asizeOf 4080 = 4088 ∧
    GET_SIZE (mm_malloc heapA 4080).2.mem (HDRP 16) = 4096 ∧
    GET_ALLOC (mm_malloc heapA 4080).2.mem (HDRP 16) = 1 ∧
    GET_SIZE (mm_malloc heapA 4080).2.mem 4104 = 4096 ∧
    ¬(4096 = 4088) := by decide

/-- Claim C8, counterexample.  In `init(); p1 = allocate(16);
p2 = allocate(16); release(p1); release(p2)` the released blocks (24
bytes each, at 16 and 40) do merge into a single free block — but
`release(p2)` also absorbs the adjacent 4048-byte free remainder of the
initial chunk, so the merged size is 4096, not the sum `24 + 24 = 48` of
the two blocks' sizes. -/
theorem scenario_d_counterexample :
    (mm_malloc heapA 16).1 = some 16 ∧
    (mm_malloc heapB 16).1 = some 40 ∧
    GET_SIZE heapB.mem (HDRP 16) = 24 ∧
    GET_SIZE heapC.mem (HDRP 40) = 24 ∧
    parseBlocks heapE.mem heapE.brk 16 600 = [(16, 4096, false)] ∧
    ¬(4096 = 24 + 24) := by decide

/-- Claim C8, as amended: the two released 24-byte blocks coalesce, and
the merge also takes in the adjacent 4048-byte free remainder, leaving
one single free block of size `24 + 24 + 4048 = 4096` — the whole chunk —
with the break (no heap growth) unchanged from `heapA`. -/
theorem scenario_d_amended :
    (mm_malloc heapA 16).1 = some 16 ∧
    (mm_malloc heapB 16).1 = some 40 ∧
    GET_SIZE heapB.mem (HDRP 16) = 24 ∧
    GET_SIZE heapC.mem (HDRP 40) = 24 ∧
    GET_SIZE heapC.mem (HDRP 64) = 4048 ∧
    GET_ALLOC heapC.mem (HDRP 64) = 0 ∧
    parseBlocks heapE.mem heapE.brk 16 600 = [(16, 24 + 24 + 4048, false)] ∧
    heapE.brk = heapA.brk := by decide

/-- Claim C10, counterexample.  `allocate(2 ^ 64 - 15)` on `heapA`: the C
`size_t` computation of the adjusted size wraps around —
`asize = 8 * (((2^64 - 15) + 15) mod 2^64 / 8) = 0` — yet the call
succeeds (the zero request "fits" the first free block), and the block at
the returned pointer has size 4096, which is neither `asize = 0` nor
`asize + 8 = 8`.  (`place` with `asize = 0` even rewrites the header back
to free and corrupts the prologue footer at address 8.) -/
theorem malloc_residual_counterexample :
    (mm_malloc heapA (2 ^ 64 - 15)).1 = some 16 ∧
    asizeOf (2 ^ 64 - 15) = 0 ∧
    GET_SIZE (mm_malloc heapA (2 ^ 64 - 15)).2.mem (HDRP 16) = 4096 ∧
    GET_ALLOC (mm_malloc heapA (2 ^ 64 - 15)).2.mem (HDRP 16) = 0 ∧
    GET (mm_malloc heapA (2 ^ 64 - 15)).2.mem 8 = 1 ∧
    ¬(4096 = 0 ∨ 4096 = 0 + 8) := by decide

/-- Claim C2: the code violates the no-adjacent-free-blocks invariant.
`heapX1` satisfies the heap invariants (`wf`, and its block chain
`16-byte allocated, 4080-byte free` has no adjacent free blocks), yet
`reallocate(p1, 2^64 - 1)` completes (returning pointer 32) and leaves
the chain `(16, free), (8, allocated), (16, free), (16, free)` — blocks
40 and 56 are adjacent and both free.  The slip: the adjusted size wraps
to 8 in `size_t`, `mm_malloc` hands out an 8-byte block with a 0-byte
payload, and the `memcpy` of `min(size, 24 - 8) = 16` bytes runs 16 bytes
past it, rewriting the following free block's header with user payload
bytes. -/
theorem realloc_overflow_adjacent_free_blocks :
    wf heapX1 [⟨16, true⟩, ⟨4080, false⟩] ∧
    noAdjFreeB (parseBlocks heapX1.mem heapX1.brk 16 600) = true ∧
    (mm_realloc heapX1 (some 16) (2 ^ 64 - 1)).1 = some 32 ∧
    parseBlocks heapX2.mem heapX2.brk 16 600 =
      [(16, 16, false), (32, 8, true), (40, 16, false), (56, 16, false)] ∧
    noAdjFreeB (parseBlocks heapX2.mem heapX2.brk 16 600) = false := by decide


/-! ### Word-level memory lemmas -/


theorem get8_lt (m : Mem) (p : Nat) : get8 m p < 256 := Nat.mod_lt _ (by norm_num)

theorem get8_put8_self (m : Mem) (p v : Nat) : get8 (put8 m p v) p = v % 256 := by
  simp [get8, put8]

theorem get8_put8_other (m : Mem) (p v q : Nat) (h : q ≠ p) :
    get8 (put8 m p v) q = get8 m q := by
  simp [get8, put8, h]

theorem GET_lt (m : Mem) (p : Nat) : GET m p < 2 ^ 32 := by
  have h0 := get8_lt m p
  have h1 := get8_lt m (p + 1)
  have h2 := get8_lt m (p + 2)
  have h3 := get8_lt m (p + 3)
  unfold GET
  omega

theorem PUT_outside (m : Mem) (p v q : Nat) (h : q < p ∨ p + 4 ≤ q) :
    PUT m p v q = m q := by
  unfold PUT put8
  have h0 : q ≠ p := by omega
  have h1 : q ≠ p + 1 := by omega
  have h2 : q ≠ p + 2 := by omega
  have h3 : q ≠ p + 3 := by omega
  simp [h0, h1, h2, h3]

theorem GET_congr (m m' : Mem) (p : Nat) (h : ∀ q, p ≤ q → q < p + 4 → m' q = m q) :
    GET m' p = GET m p := by
  unfold GET get8
  rw [h p (by omega) (by omega), h (p + 1) (by omega) (by omega),
    h (p + 2) (by omega) (by omega), h (p + 3) (by omega) (by omega)]

theorem GET_PUT_outside (m : Mem) (p v q : Nat) (h : q + 4 ≤ p ∨ p + 4 ≤ q) :
    GET (PUT m p v) q = GET m q :=
  GET_congr _ _ _ fun r hr1 hr2 => PUT_outside m p v r (by omega)

theorem GET_PUT_self (m : Mem) (p v : Nat) : GET (PUT m p v) p = v % 2 ^ 32 := by
  have b0 : get8 (PUT m p v) p = v % 256 := by
    unfold PUT
    rw [get8_put8_other _ _ _ _ (by omega), get8_put8_other _ _ _ _ (by omega),
      get8_put8_other _ _ _ _ (by omega), get8_put8_self]
  have b1 : get8 (PUT m p v) (p + 1) = v / 256 % 256 := by
    unfold PUT
    rw [get8_put8_other _ _ _ _ (by omega), get8_put8_other _ _ _ _ (by omega),
      get8_put8_self]
  have b2 : get8 (PUT m p v) (p + 2) = v / 65536 % 256 := by
    unfold PUT
    rw [get8_put8_other _ _ _ _ (by omega), get8_put8_self]
  have b3 : get8 (PUT m p v) (p + 3) = v / 16777216 % 256 := by
    unfold PUT
    rw [get8_put8_self]
  unfold GET
  rw [b0, b1, b2, b3]
  omega



theorem lor_eq_add {s a : Nat} (hs : s % 8 = 0) (ha : a < 8) : s ||| a = s + a := by
  obtain ⟨k, rfl⟩ : ∃ k, s = 8 * k := ⟨s / 8, by omega⟩
  refine Nat.eq_of_testBit_eq fun i => ?_
  rw [Nat.testBit_or]
  have hshift : (8 * k) = k <<< 3 := by rw [Nat.shiftLeft_eq]; ring
  rcases Nat.lt_or_ge i 3 with h3 | h3
  · have h8k : (8 * k).testBit i = false := by
      rw [hshift, Nat.testBit_shiftLeft]
      simp [Nat.not_le.mpr h3]
    have hsum : (8 * k + a).testBit i = a.testBit i := by
      have hmod : (8 * k + a) % 2 ^ 3 = a := by omega
      have hbits := Nat.testBit_mod_two_pow (8 * k + a) 3 i
      rw [hmod] at hbits
      rw [hbits]
      simp [h3]
    rw [h8k, hsum, Bool.false_or]
  · have h8k : (8 * k).testBit i = k.testBit (i - 3) := by
      rw [hshift, Nat.testBit_shiftLeft]
      simp [h3]
    have hpow : (8 : Nat) ≤ 2 ^ i := by
      calc (8 : Nat) = 2 ^ 3 := by norm_num
        _ ≤ 2 ^ i := Nat.pow_le_pow_right (by norm_num) h3
    have ha' : a.testBit i = false :=
      Nat.testBit_eq_false_of_lt (lt_of_lt_of_le ha hpow)
    have hsum : (8 * k + a).testBit i = k.testBit (i - 3) := by
      have hdiv : (8 * k + a) / 2 ^ 3 = k := by omega
      have hbits := Nat.testBit_shiftRight (i := 3) (j := i - 3) (8 * k + a)
      rw [Nat.shiftRight_eq_div_pow, hdiv, show 3 + (i - 3) = i by omega] at hbits
      exact hbits.symm
    rw [h8k, ha', hsum, Bool.or_false]

theorem and_mask8 {x : Nat} (hx : x < 2 ^ 32) : x &&& 0xFFFFFFF8 = x - x % 8 := by
  have hmask : (0xFFFFFFF8 : Nat) = (2 ^ 29 - 1) <<< 3 := by
    rw [Nat.shiftLeft_eq]
    norm_num
  have hsub : x - x % 8 = (x / 8) <<< 3 := by rw [Nat.shiftLeft_eq]; omega
  refine Nat.eq_of_testBit_eq fun i => ?_
  rw [Nat.testBit_and, hmask, Nat.testBit_shiftLeft, Nat.testBit_two_pow_sub_one,
    hsub, Nat.testBit_shiftLeft]
  rcases Nat.lt_or_ge i 3 with h3 | h3
  · simp [Nat.not_le.mpr h3]
  · have hdivbit : (x / 8).testBit (i - 3) = x.testBit i := by
      have hbits := Nat.testBit_shiftRight (i := 3) (j := i - 3) x
      rw [Nat.shiftRight_eq_div_pow] at hbits
      norm_num at hbits
      rw [hbits]
      congr 1
      omega
    rcases Nat.lt_or_ge i 32 with h32 | h32
    · rw [hdivbit]
      simp [h3, show i - 3 < 29 by omega]
    · have hpow : (2 : Nat) ^ 32 ≤ 2 ^ i := Nat.pow_le_pow_right (by norm_num) h32
      have hx' : x.testBit i = false :=
        Nat.testBit_eq_false_of_lt (lt_of_lt_of_le hx hpow)
      have hd : (x / 8).testBit (i - 3) = false := by rw [hdivbit]; exact hx'
      simp [hx', hd]

theorem and_one_eq (x : Nat) : x &&& 1 = x % 2 := Nat.and_one_is_mod x



/-! ### Block-list representation lemmas, first-fit and place correctness -/


theorem put8_outside (m : Mem) (p v q : Nat) (h : q ≠ p) : put8 m p v q = m q := by
  simp [put8, h]

theorem memcpyBytes_outside (m : Mem) (dst src n q : Nat) (h : q < dst ∨ dst + n ≤ q) :
    memcpyBytes m dst src n q = m q := by
  induction n with
  | zero => rfl
  | succ k ih =>
    show put8 (memcpyBytes m dst src k) (dst + k) (get8 m (src + k)) q = m q
    rw [put8_outside _ _ _ _ (by omega)]
    exact ih (by omega)

theorem PACK_eq (s a : Nat) (hs : s % 8 = 0) (ha : a < 8) : PACK s a = s + a :=
  lor_eq_add hs ha

theorem GET_SIZE_of {m : Mem} {p s a : Nat} (h : GET m p = s + a) (hs : s % 8 = 0)
    (ha : a < 2) : GET_SIZE m p = s := by
  have hlt : s + a < 2 ^ 32 := h ▸ GET_lt m p
  unfold GET_SIZE
  rw [h, and_mask8 hlt]
  omega

theorem GET_ALLOC_of {m : Mem} {p s a : Nat} (h : GET m p = s + a) (hs : s % 8 = 0)
    (ha : a < 2) : GET_ALLOC m p = a := by
  unfold GET_ALLOC
  rw [h, and_one_eq]
  omega

theorem GET_PUT_pack (m : Mem) (p s a : Nat) (hs : s % 8 = 0) (ha : a < 2)
    (hlt : s + a < 2 ^ 32) : GET (PUT m p (PACK s a)) p = s + a := by
  rw [PACK_eq s a hs (by omega), GET_PUT_self]
  omega

theorem hdrVal_lt {m : Mem} {p : Nat} {b : Blk} (h : GET m p = hdrVal b) :
    hdrVal b < 2 ^ 32 := h ▸ GET_lt m p

@[simp] theorem sumSizes_nil : sumSizes [] = 0 := rfl

@[simp] theorem sumSizes_cons (b : Blk) (l : List Blk) :
    sumSizes (b :: l) = b.size + sumSizes l := by
  simp [sumSizes]

@[simp] theorem sumSizes_append (xs ys : List Blk) :
    sumSizes (xs ++ ys) = sumSizes xs + sumSizes ys := by
  simp [sumSizes]

theorem reprSeg_append {m : Mem} {a : Nat} {xs ys : List Blk} :
    reprSeg m a (xs ++ ys) ↔ reprSeg m a xs ∧ reprSeg m (a + sumSizes xs) ys := by
  induction xs generalizing a with
  | nil => simp [reprSeg]
  | cons b xs ih =>
    show (8 ≤ b.size ∧ _ ∧ _ ∧ _ ∧ reprSeg m (a + b.size) (xs ++ ys)) ↔ _
    rw [ih]
    constructor
    · rintro ⟨h1, h2, h3, h4, h5, h6⟩
      exact ⟨⟨h1, h2, h3, h4, h5⟩, by rw [sumSizes_cons, ← Nat.add_assoc]; exact h6⟩
    · rintro ⟨⟨h1, h2, h3, h4, h5⟩, h6⟩
      exact ⟨h1, h2, h3, h4, h5, by rw [sumSizes_cons, ← Nat.add_assoc] at h6; exact h6⟩

theorem reprSeg_congr {m m' : Mem} {a : Nat} {bl : List Blk}
    (h : ∀ q, a - 4 ≤ q → q < a - 4 + sumSizes bl → m' q = m q)
    (hr : reprSeg m a bl) : reprSeg m' a bl := by
  induction bl generalizing a with
  | nil => trivial
  | cons b bl ih =>
    obtain ⟨h1, h2, h3, h4, h5⟩ := hr
    refine ⟨h1, h2, ?_, ?_, ?_⟩
    · rw [GET_congr m m' (a - 4) fun q hq1 hq2 => h q (by omega) (by simp; omega)]
      exact h3
    · rw [GET_congr m m' (a + b.size - 8) fun q hq1 hq2 => h q (by omega) (by simp; omega)]
      exact h4
    · exact ih (fun q hq1 hq2 => h q (by omega) (by simp; omega)) h5

theorem reprSeg_length {m : Mem} {a : Nat} {bl : List Blk} (hr : reprSeg m a bl) :
    8 * bl.length ≤ sumSizes bl := by
  induction bl generalizing a with
  | nil => simp
  | cons b bl ih =>
    obtain ⟨h1, _, _, _, h5⟩ := hr
    have := ih h5
    simp only [List.length_cons, sumSizes_cons]
    omega



/-- Spec-side first-fit (spec section 4.2): scan the abstract chain in address
order, return the payload address of the first block that is free and
holds at least `asize` bytes. -/
def firstFit : List Blk → Nat → Nat → Option Nat
  | [], _, _ => none
  | b :: bl, a, asize =>
    if b.alloc = false ∧ asize ≤ b.size then some a else firstFit bl (a + b.size) asize

theorem GET_SIZE_hdr {m : Mem} {p : Nat} {b : Blk} (h : GET m p = hdrVal b)
    (h8 : b.size % 8 = 0) : GET_SIZE m p = b.size :=
  GET_SIZE_of h h8 (by cases b.alloc <;> simp [hdrVal])

theorem GET_ALLOC_hdr {m : Mem} {p : Nat} {b : Blk} (h : GET m p = hdrVal b)
    (h8 : b.size % 8 = 0) : GET_ALLOC m p = if b.alloc then 1 else 0 :=
  GET_ALLOC_of h h8 (by cases b.alloc <;> simp [hdrVal])

theorem find_fit_loop_spec (m : Mem) (bl : List Blk) (a asize fuel : Nat)
    (hr : reprSeg m a bl) (hepi : GET m (a + sumSizes bl - 4) = 1)
    (hfuel : bl.length < fuel) :
    find_fit_loop m asize a fuel = firstFit bl a asize := by
  induction bl generalizing a fuel with
  | nil =>
    obtain ⟨f, rfl⟩ : ∃ f, fuel = f + 1 := ⟨fuel - 1, by omega⟩
    simp only [sumSizes_nil, Nat.add_zero] at hepi
    have hsz : GET_SIZE m (HDRP a) = 0 :=
      GET_SIZE_of (s := 0) (a := 1) hepi (by norm_num) (by norm_num)
    rw [find_fit_loop, if_neg (by omega)]
    rfl
  | cons b bl ih =>
    obtain ⟨f, rfl⟩ : ∃ f, fuel = f + 1 := ⟨fuel - 1, by omega⟩
    obtain ⟨h1, h2, h3, h4, h5⟩ := hr
    have hsz : GET_SIZE m (HDRP a) = b.size := GET_SIZE_hdr h3 h2
    have hal : GET_ALLOC m (HDRP a) = if b.alloc then 1 else 0 := GET_ALLOC_hdr h3 h2
    have hnext : NEXT_BLKP m a = a + b.size := by unfold NEXT_BLKP; rw [hsz]
    have hepi2 : GET m (a + b.size + sumSizes bl - 4) = 1 := by
      have heq : a + b.size + sumSizes bl - 4 = a + sumSizes (b :: bl) - 4 := by
        simp; omega
      rw [heq]; exact hepi
    rw [find_fit_loop, if_pos (by omega), hnext]
    cases hb : b.alloc with
    | false =>
      by_cases hfit : asize ≤ b.size
      · rw [if_pos ⟨by rw [hal, hb]; rfl, by rw [hsz]; exact hfit⟩]
        rw [firstFit, if_pos ⟨hb, hfit⟩]
      · rw [if_neg (by rw [hsz]; exact fun hc => hfit hc.2)]
        rw [firstFit, if_neg (by exact fun hc => hfit hc.2)]
        exact ih (a + b.size) f h5 hepi2 (by simp only [List.length_cons] at hfuel; omega)
    | true =>
      rw [if_neg (by rw [hal, hb]; exact fun hc => by simpa using hc.1)]
      rw [firstFit, if_neg (by rw [hb]; exact fun hc => by simpa using hc.1)]
      exact ih (a + b.size) f h5 hepi2 (by simp only [List.length_cons] at hfuel; omega)

theorem find_fit_spec (st : AState) (bl : List Blk) (asize : Nat) (h : wf st bl) :
    find_fit st asize = firstFit bl 16 asize := by
  obtain ⟨hlp, hpro1, hpro2, hrepr, hepi, hbrk, hmx, hmx32⟩ := h
  unfold find_fit
  rw [hlp]
  have h4 : HDRP 8 = 4 := rfl
  have hsz : GET_SIZE st.mem (HDRP 8) = 8 := by
    rw [h4]; exact GET_SIZE_of (s := 8) (a := 1) (by rw [hpro1]) (by norm_num) (by norm_num)
  have hal : GET_ALLOC st.mem (HDRP 8) = 1 := by
    rw [h4]; exact GET_ALLOC_of (s := 8) (a := 1) (by rw [hpro1]) (by norm_num) (by norm_num)
  have hnext : NEXT_BLKP st.mem 8 = 16 := by unfold NEXT_BLKP; rw [hsz]
  have hlen := reprSeg_length hrepr
  rw [find_fit_loop, if_pos (by rw [hsz]; norm_num), if_neg (by rw [hal]; simp), hnext]
  apply find_fit_loop_spec
  · exact hrepr
  · have heq : 16 + sumSizes bl - 4 = 12 + sumSizes bl := by omega
    rw [heq]; exact hepi
  · omega



theorem firstFit_decomp {bl : List Blk} {a asize bp : Nat}
    (h : firstFit bl a asize = some bp) :
    ∃ pre b post, bl = pre ++ b :: post ∧ bp = a + sumSizes pre ∧
      b.alloc = false ∧ asize ≤ b.size := by
  induction bl generalizing a with
  | nil => exact absurd h (by simp [firstFit])
  | cons b bl ih =>
    by_cases hc : b.alloc = false ∧ asize ≤ b.size
    · rw [firstFit, if_pos hc] at h
      exact ⟨[], b, bl, rfl, by simpa using (Option.some_injective _ h).symm, hc.1, hc.2⟩
    · rw [firstFit, if_neg hc] at h
      obtain ⟨pre, c, post, hbl, hbp, hal, hsz⟩ := ih h
      exact ⟨b :: pre, c, post, by simp [hbl], by rw [hbp]; simp; omega, hal, hsz⟩

theorem sub64_eq {x y : Nat} (h : y ≤ x) (hx : x < 2 ^ 64) : sub64 x y = x - y := by
  unfold sub64
  have hy : y % 2 ^ 64 = y := Nat.mod_eq_of_lt (lt_of_le_of_lt h hx)
  rw [hy]
  have heq : x + 2 ^ 64 - y = (x - y) + 2 ^ 64 := by omega
  rw [heq, Nat.add_mod_right]
  exact Nat.mod_eq_of_lt (by omega)

theorem GET_SIZE_PUT_pack (m : Mem) (p s a : Nat) (hs : s % 8 = 0) (ha : a < 2)
    (hlt : s + a < 2 ^ 32) : GET_SIZE (PUT m p (PACK s a)) p = s :=
  GET_SIZE_of (GET_PUT_pack m p s a hs ha hlt) hs ha

theorem GET_SIZE_PUT_outside (m : Mem) (p v q : Nat) (h : q + 4 ≤ p ∨ p + 4 ≤ q) :
    GET_SIZE (PUT m p v) q = GET_SIZE m q := by
  unfold GET_SIZE
  rw [GET_PUT_outside m p v q (by omega)]

theorem place_split_eq (m : Mem) (bp csize asize : Nat) (hbp : 8 ≤ bp)
    (hcs : GET_SIZE m (HDRP bp) = csize) (ha8 : asize % 8 = 0) (ha16 : 16 ≤ asize)
    (hle : asize + 16 ≤ csize) (hc8 : csize % 8 = 0) (hc32 : csize < 2 ^ 32) :
    place m bp asize =
      PUT (PUT (PUT (PUT m (bp - 4) (PACK asize 1)) (bp + asize - 8) (PACK asize 1))
        (bp + asize - 4) (PACK (csize - asize) 0)) (bp + csize - 8) (PACK (csize - asize) 0) := by
  have hsub : sub64 csize asize = csize - asize := sub64_eq (by omega) (by omega)
  have ha32 : asize + 1 < 2 ^ 32 := by omega
  have e1 : FTRP (PUT m (HDRP bp) (PACK asize 1)) bp = bp + asize - 8 := by
    unfold FTRP
    rw [GET_SIZE_PUT_pack m (HDRP bp) asize 1 ha8 (by norm_num) ha32]
  have e2 : NEXT_BLKP (PUT (PUT m (HDRP bp) (PACK asize 1)) (bp + asize - 8) (PACK asize 1)) bp
      = bp + asize := by
    unfold NEXT_BLKP
    rw [GET_SIZE_PUT_outside _ _ _ _ (by unfold HDRP; omega),
      GET_SIZE_PUT_pack m (HDRP bp) asize 1 ha8 (by norm_num) ha32]
  have e3 : FTRP (PUT (PUT (PUT m (HDRP bp) (PACK asize 1)) (bp + asize - 8) (PACK asize 1))
      (HDRP (bp + asize)) (PACK (csize - asize) 0)) (bp + asize) = bp + csize - 8 := by
    unfold FTRP
    rw [GET_SIZE_PUT_pack _ (HDRP (bp + asize)) (csize - asize) 0 (by omega)
      (by norm_num) (by omega)]
    omega
  simp only [place, hcs, hsub, if_pos (show 2 * 8 ≤ csize - asize by omega)]
  rw [e1, e2, e3]
  have hh : HDRP bp = bp - 4 := rfl
  have hh2 : HDRP (bp + asize) = bp + asize - 4 := rfl
  rw [hh, hh2]



theorem place_split_core (m : Mem) (bp csize asize : Nat) (hbp8 : 8 ≤ bp)
    (h3 : GET m (bp - 4) = csize) (hc8 : csize % 8 = 0) (ha8 : asize % 8 = 0)
    (ha16 : 16 ≤ asize) (hle : asize + 16 ≤ csize) :
    GET (place m bp asize) (bp - 4) = asize + 1 ∧
    GET (place m bp asize) (bp + asize - 8) = asize + 1 ∧
    GET (place m bp asize) (bp + asize - 4) = csize - asize ∧
    GET (place m bp asize) (bp + csize - 8) = csize - asize ∧
    (∀ q, q < bp - 4 ∨ bp - 4 + csize ≤ q → place m bp asize q = m q) := by
  have hc32 : csize < 2 ^ 32 := h3 ▸ GET_lt m (bp - 4)
  have hcs : GET_SIZE m (HDRP bp) = csize :=
    GET_SIZE_of (s := csize) (a := 0) (by unfold HDRP; omega) hc8 (by norm_num)
  rw [place_split_eq m bp csize asize hbp8 hcs ha8 ha16 hle hc8 hc32]
  refine ⟨?_, ?_, ?_, ?_, ?_⟩
  · rw [GET_PUT_outside _ _ _ _ (by omega), GET_PUT_outside _ _ _ _ (by omega),
      GET_PUT_outside _ _ _ _ (by omega),
      GET_PUT_pack _ _ _ _ ha8 (by norm_num) (by omega)]
  · rw [GET_PUT_outside _ _ _ _ (by omega), GET_PUT_outside _ _ _ _ (by omega),
      GET_PUT_pack _ _ _ _ ha8 (by norm_num) (by omega)]
  · rw [GET_PUT_outside _ _ _ _ (by omega),
      GET_PUT_pack _ _ _ _ (by omega) (by norm_num) (by omega)]
    omega
  · rw [GET_PUT_pack _ _ _ _ (by omega) (by norm_num) (by omega)]
    omega
  · intro q hq
    rw [PUT_outside _ _ _ _ (by omega), PUT_outside _ _ _ _ (by omega),
      PUT_outside _ _ _ _ (by omega), PUT_outside _ _ _ _ (by omega)]

theorem place_nosplit_eq (m : Mem) (bp csize asize : Nat) (hbp : 8 ≤ bp)
    (hcs : GET_SIZE m (HDRP bp) = csize) (hc8 : csize % 8 = 0) (hle : asize ≤ csize)
    (hlt : csize < asize + 16) (hc32 : csize < 2 ^ 32) :
    place m bp asize =
      PUT (PUT m (bp - 4) (PACK csize 1)) (bp + csize - 8) (PACK csize 1) := by
  have hsub : sub64 csize asize = csize - asize := sub64_eq hle (by omega)
  have e1 : FTRP (PUT m (HDRP bp) (PACK csize 1)) bp = bp + csize - 8 := by
    unfold FTRP
    rw [GET_SIZE_PUT_pack m (HDRP bp) csize 1 hc8 (by norm_num) (by omega)]
  simp only [place, hcs, hsub, if_neg (show ¬(2 * 8 ≤ csize - asize) by omega)]
  rw [e1]
  have hh : HDRP bp = bp - 4 := rfl
  rw [hh]

theorem place_nosplit_core (m : Mem) (bp csize asize : Nat) (hbp8 : 8 ≤ bp)
    (h3 : GET m (bp - 4) = csize) (hc8 : csize % 8 = 0) (hle : asize ≤ csize)
    (hlt : csize < asize + 16) (hc16 : 8 ≤ csize) :
    GET (place m bp asize) (bp - 4) = csize + 1 ∧
    GET (place m bp asize) (bp + csize - 8) = csize + 1 ∧
    (∀ q, q < bp - 4 ∨ bp - 4 + csize ≤ q → place m bp asize q = m q) := by
  have hc32 : csize < 2 ^ 32 := h3 ▸ GET_lt m (bp - 4)
  have hcs : GET_SIZE m (HDRP bp) = csize :=
    GET_SIZE_of (s := csize) (a := 0) (by unfold HDRP; omega) hc8 (by norm_num)
  rw [place_nosplit_eq m bp csize asize hbp8 hcs hc8 hle hlt hc32]
  refine ⟨?_, ?_, ?_⟩
  · rw [GET_PUT_outside _ _ _ _ (by omega),
      GET_PUT_pack _ _ _ _ hc8 (by norm_num) (by omega)]
  · rw [GET_PUT_pack _ _ _ _ hc8 (by norm_num) (by omega)]
  · intro q hq
    rw [PUT_outside _ _ _ _ (by omega), PUT_outside _ _ _ _ (by omega)]



theorem place_split_spec (m : Mem) (pre post : List Blk) (csize asize : Nat)
    (hrepr : reprSeg m 16 (pre ++ ⟨csize, false⟩ :: post))
    (ha8 : asize % 8 = 0) (ha16 : 16 ≤ asize) (hle : asize + 16 ≤ csize) :
    reprSeg (place m (16 + sumSizes pre) asize) 16
      (pre ++ ⟨asize, true⟩ :: ⟨csize - asize, false⟩ :: post) ∧
    ∀ q, q < 12 + sumSizes pre ∨ 12 + sumSizes pre + csize ≤ q →
      place m (16 + sumSizes pre) asize q = m q := by
  rw [reprSeg_append] at hrepr
  obtain ⟨hpre, h1a, h2a, h3a, h4a, h5a⟩ := hrepr
  have h1 : 8 ≤ csize := h1a
  have h2 : csize % 8 = 0 := h2a
  have h3 : GET m (16 + sumSizes pre - 4) = csize := by
    rw [h3a]; simp [hdrVal]
  have h5 : reprSeg m (16 + sumSizes pre + csize) post := h5a
  obtain ⟨g1, g2, g3, g4, gfr⟩ := place_split_core m (16 + sumSizes pre) csize asize
    (by omega) h3 h2 ha8 ha16 hle
  constructor
  · rw [reprSeg_append]
    constructor
    · exact reprSeg_congr (fun q hq1 hq2 => gfr q (by omega)) hpre
    · show reprSeg _ (16 + sumSizes pre)
        (⟨asize, true⟩ :: ⟨csize - asize, false⟩ :: post)
      refine ⟨(show 8 ≤ asize by omega), ha8, ?_, ?_,
        (show 8 ≤ csize - asize by omega), (show (csize - asize) % 8 = 0 by omega),
        ?_, ?_, ?_⟩
      · rw [show hdrVal ⟨asize, true⟩ = asize + 1 by simp [hdrVal]]
        exact g1
      · rw [show hdrVal ⟨asize, true⟩ = asize + 1 by simp [hdrVal]]
        exact g2
      · rw [show hdrVal ⟨csize - asize, false⟩ = csize - asize by simp [hdrVal]]
        exact g3
      · rw [show hdrVal ⟨csize - asize, false⟩ = csize - asize by simp [hdrVal],
          show 16 + sumSizes pre + asize + (csize - asize) - 8
            = 16 + sumSizes pre + csize - 8 by omega]
        exact g4
      · rw [show 16 + sumSizes pre + asize + (csize - asize)
            = 16 + sumSizes pre + csize by omega]
        exact reprSeg_congr (fun q hq1 hq2 => gfr q (by omega)) h5
  · intro q hq
    exact gfr q (by omega)

theorem place_nosplit_spec (m : Mem) (pre post : List Blk) (csize asize : Nat)
    (hrepr : reprSeg m 16 (pre ++ ⟨csize, false⟩ :: post))
    (hle : asize ≤ csize) (hlt : csize < asize + 16) :
    reprSeg (place m (16 + sumSizes pre) asize) 16 (pre ++ ⟨csize, true⟩ :: post) ∧
    ∀ q, q < 12 + sumSizes pre ∨ 12 + sumSizes pre + csize ≤ q →
      place m (16 + sumSizes pre) asize q = m q := by
  rw [reprSeg_append] at hrepr
  obtain ⟨hpre, h1a, h2a, h3a, h4a, h5a⟩ := hrepr
  have h1 : 8 ≤ csize := h1a
  have h2 : csize % 8 = 0 := h2a
  have h3 : GET m (16 + sumSizes pre - 4) = csize := by
    rw [h3a]; simp [hdrVal]
  have h5 : reprSeg m (16 + sumSizes pre + csize) post := h5a
  obtain ⟨g1, g2, gfr⟩ := place_nosplit_core m (16 + sumSizes pre) csize asize
    (by omega) h3 h2 hle hlt h1
  constructor
  · rw [reprSeg_append]
    constructor
    · exact reprSeg_congr (fun q hq1 hq2 => gfr q (by omega)) hpre
    · show reprSeg _ (16 + sumSizes pre) (⟨csize, true⟩ :: post)
      refine ⟨h1, h2, ?_, ?_, ?_⟩
      · rw [show hdrVal ⟨csize, true⟩ = csize + 1 by simp [hdrVal]]
        exact g1
      · rw [show hdrVal ⟨csize, true⟩ = csize + 1 by simp [hdrVal]]
        exact g2
      · show reprSeg _ (16 + sumSizes pre + csize) post
        exact reprSeg_congr (fun q hq1 hq2 => gfr q (by omega)) h5
  · intro q hq
    exact gfr q (by omega)



/-! ### Coalescing correctness -/

theorem prev_read (m : Mem) (bp ps pa : Nat) (hbp : ps + 8 ≤ bp)
    (hpf : GET m (bp - 8) = ps + pa) (hph : GET m (bp - ps - 4) = ps + pa)
    (hps8 : ps % 8 = 0) (hpa2 : pa < 2) :
    PREV_BLKP m bp = bp - ps ∧ GET_ALLOC m (FTRP m (PREV_BLKP m bp)) = pa := by
  have e1 : GET_SIZE m (bp - 8) = ps := GET_SIZE_of hpf hps8 hpa2
  have e2 : PREV_BLKP m bp = bp - ps := by unfold PREV_BLKP; rw [e1]
  have e3 : GET_SIZE m (HDRP (bp - ps)) = ps := by
    have hrw : HDRP (bp - ps) = bp - ps - 4 := rfl
    rw [hrw]
    exact GET_SIZE_of hph hps8 hpa2
  have e4 : FTRP m (bp - ps) = bp - 8 := by
    unfold FTRP
    rw [e3]
    omega
  refine ⟨e2, ?_⟩
  rw [e2, e4]
  exact GET_ALLOC_of hpf hps8 hpa2

theorem next_read (m : Mem) (bp bs ns na : Nat)
    (hh : GET m (bp - 4) = bs) (hbs8 : bs % 8 = 0)
    (hnh : GET m (bp + bs - 4) = ns + na) (hns8 : ns % 8 = 0) (hna2 : na < 2) :
    NEXT_BLKP m bp = bp + bs ∧ GET_SIZE m (HDRP bp) = bs ∧
      GET_ALLOC m (HDRP (NEXT_BLKP m bp)) = na := by
  have e1 : GET_SIZE m (HDRP bp) = bs := by
    have hrw : HDRP bp = bp - 4 := rfl
    rw [hrw]
    exact GET_SIZE_of (s := bs) (a := 0) (by omega) hbs8 (by norm_num)
  have e2 : NEXT_BLKP m bp = bp + bs := by unfold NEXT_BLKP; rw [e1]
  refine ⟨e2, e1, ?_⟩
  rw [e2]
  have hrw : HDRP (bp + bs) = bp + bs - 4 := rfl
  rw [hrw]
  exact GET_ALLOC_of hnh hns8 hna2

theorem coalesce_case1_eq (m : Mem) (bp ps bs ns : Nat) (hbp : ps + 8 ≤ bp)
    (hpf : GET m (bp - 8) = ps + 1) (hph : GET m (bp - ps - 4) = ps + 1)
    (hps8 : ps % 8 = 0)
    (hh : GET m (bp - 4) = bs) (hbs8 : bs % 8 = 0)
    (hnh : GET m (bp + bs - 4) = ns + 1) (hns8 : ns % 8 = 0) :
    coalesce m bp = (bp, m) := by
  obtain ⟨ep, epa⟩ := prev_read m bp ps 1 hbp hpf hph hps8 (by norm_num)
  obtain ⟨en, esz, ena⟩ := next_read m bp bs ns 1 hh hbs8 hnh hns8 (by norm_num)
  simp only [coalesce, epa, ena]
  rw [if_pos ⟨one_ne_zero, one_ne_zero⟩]

theorem coalesce_case2_eq (m : Mem) (bp ps bs ns : Nat) (hbp : ps + 8 ≤ bp)
    (hpf : GET m (bp - 8) = ps + 1) (hph : GET m (bp - ps - 4) = ps + 1)
    (hps8 : ps % 8 = 0)
    (hh : GET m (bp - 4) = bs) (hbs8 : bs % 8 = 0)
    (hnh : GET m (bp + bs - 4) = ns) (hns8 : ns % 8 = 0)
    (hsum : bs + ns < 2 ^ 32) :
    coalesce m bp =
      (bp, PUT (PUT m (bp - 4) (PACK (bs + ns) 0)) (bp + bs + ns - 8) (PACK (bs + ns) 0)) := by
  obtain ⟨ep, epa⟩ := prev_read m bp ps 1 hbp hpf hph hps8 (by norm_num)
  obtain ⟨en, esz, ena⟩ := next_read m bp bs ns 0 hh hbs8 (by omega) hns8 (by norm_num)
  have ensz : GET_SIZE m (HDRP (NEXT_BLKP m bp)) = ns := by
    rw [en]
    have hrw : HDRP (bp + bs) = bp + bs - 4 := rfl
    rw [hrw]
    exact GET_SIZE_of (s := ns) (a := 0) (by omega) hns8 (by norm_num)
  have eftr : FTRP (PUT m (HDRP bp) (PACK (bs + ns) 0)) bp = bp + bs + ns - 8 := by
    unfold FTRP
    have hrw : HDRP bp = bp - 4 := rfl
    rw [hrw, GET_SIZE_PUT_pack m (bp - 4) (bs + ns) 0 (by omega) (by norm_num) (by omega)]
    omega
  simp only [coalesce, epa, ena, esz, ensz]
  rw [if_neg (by simp), if_pos (by simp)]
  have hrw : HDRP bp = bp - 4 := rfl
  rw [hrw] at eftr ⊢
  rw [eftr]

theorem coalesce_case3_eq (m : Mem) (bp ps bs ns : Nat) (hbp : ps + 8 ≤ bp)
    (hps16 : 8 ≤ ps)
    (hpf : GET m (bp - 8) = ps) (hph : GET m (bp - ps - 4) = ps)
    (hps8 : ps % 8 = 0)
    (hh : GET m (bp - 4) = bs) (hbs8 : bs % 8 = 0) (hbs16 : 8 ≤ bs)
    (hnh : GET m (bp + bs - 4) = ns + 1) (hns8 : ns % 8 = 0) :
    coalesce m bp =
      (bp - ps, PUT (PUT m (bp + bs - 8) (PACK (bs + ps) 0)) (bp - ps - 4) (PACK (bs + ps) 0)) := by
  obtain ⟨ep, epa⟩ := prev_read m bp ps 0 hbp (by omega) (by omega) hps8 (by norm_num)
  obtain ⟨en, esz, ena⟩ := next_read m bp bs ns 1 hh hbs8 hnh hns8 (by norm_num)
  have epsz : GET_SIZE m (HDRP (PREV_BLKP m bp)) = ps := by
    rw [ep]
    have hrw : HDRP (bp - ps) = bp - ps - 4 := rfl
    rw [hrw]
    exact GET_SIZE_of (s := ps) (a := 0) (by omega) hps8 (by norm_num)
  have eftr : FTRP m bp = bp + bs - 8 := by
    unfold FTRP
    rw [esz]
  have eprev1 : PREV_BLKP (PUT m (bp + bs - 8) (PACK (bs + ps) 0)) bp = bp - ps := by
    unfold PREV_BLKP
    rw [GET_SIZE_PUT_outside _ _ _ _ (by omega),
      GET_SIZE_of (s := ps) (a := 0) (by omega) hps8 (by norm_num)]
  have eprev2 : PREV_BLKP (PUT (PUT m (bp + bs - 8) (PACK (bs + ps) 0)) (bp - ps - 4)
      (PACK (bs + ps) 0)) bp = bp - ps := by
    unfold PREV_BLKP
    rw [GET_SIZE_PUT_outside _ _ _ _ (by omega), GET_SIZE_PUT_outside _ _ _ _ (by omega),
      GET_SIZE_of (s := ps) (a := 0) (by omega) hps8 (by norm_num)]
  simp only [coalesce, epa, ena, esz, epsz]
  rw [if_neg (by simp), if_neg (by simp), if_pos (by simp)]
  rw [eftr]
  have hrw : HDRP (bp - ps) = bp - ps - 4 := rfl
  rw [show PREV_BLKP (PUT m (bp + bs - 8) (PACK (bs + ps) 0)) bp = bp - ps from eprev1,
    hrw, eprev2]

theorem coalesce_case4_eq (m : Mem) (bp ps bs ns : Nat) (hbp : ps + 8 ≤ bp)
    (hps16 : 8 ≤ ps)
    (hpf : GET m (bp - 8) = ps) (hph : GET m (bp - ps - 4) = ps)
    (hps8 : ps % 8 = 0)
    (hh : GET m (bp - 4) = bs) (hbs8 : bs % 8 = 0) (hbs16 : 8 ≤ bs)
    (hnh : GET m (bp + bs - 4) = ns) (hns8 : ns % 8 = 0)
    (hnf : GET m (bp + bs + ns - 8) = ns) :
    coalesce m bp =
      (bp - ps, PUT (PUT m (bp - ps - 4) (PACK (bs + ps + ns) 0)) (bp + bs + ns - 8)
        (PACK (bs + ps + ns) 0)) := by
  have ehdr0 : HDRP bp = bp - 4 := rfl
  have ehdr1 : HDRP (bp + bs) = bp + bs - 4 := rfl
  have ehdr2 : HDRP (bp - ps) = bp - ps - 4 := rfl
  have esz : GET_SIZE m (bp - 4) = bs :=
    GET_SIZE_of (s := bs) (a := 0) (by omega) hbs8 (by norm_num)
  have epsz : GET_SIZE m (bp - ps - 4) = ps :=
    GET_SIZE_of (s := ps) (a := 0) (by omega) hps8 (by norm_num)
  have ensz : GET_SIZE m (bp + bs - 4) = ns :=
    GET_SIZE_of (s := ns) (a := 0) (by omega) hns8 (by norm_num)
  have ep : PREV_BLKP m bp = bp - ps := by
    unfold PREV_BLKP
    rw [GET_SIZE_of (s := ps) (a := 0) (by omega) hps8 (by norm_num)]
  have eftrp : FTRP m (bp - ps) = bp - 8 := by
    unfold FTRP
    rw [ehdr2, epsz]
    omega
  have epa : GET_ALLOC m (bp - 8) = 0 :=
    GET_ALLOC_of (s := ps) (a := 0) (by omega) hps8 (by norm_num)
  have en : NEXT_BLKP m bp = bp + bs := by
    unfold NEXT_BLKP
    rw [ehdr0, esz]
  have ena : GET_ALLOC m (bp + bs - 4) = 0 :=
    GET_ALLOC_of (s := ns) (a := 0) (by omega) hns8 (by norm_num)
  have eftrn : FTRP m (bp + bs) = bp + bs + ns - 8 := by
    unfold FTRP
    rw [ehdr1, ensz]
  have ensf : GET_SIZE m (bp + bs + ns - 8) = ns :=
    GET_SIZE_of (s := ns) (a := 0) (by omega) hns8 (by norm_num)
  have enext2 : NEXT_BLKP (PUT m (bp - ps - 4) (PACK (bs + ps + ns) 0)) bp = bp + bs := by
    unfold NEXT_BLKP
    rw [ehdr0, GET_SIZE_PUT_outside _ _ _ _ (by omega), esz]
  have eftr2 : FTRP (PUT m (bp - ps - 4) (PACK (bs + ps + ns) 0)) (bp + bs)
      = bp + bs + ns - 8 := by
    unfold FTRP
    rw [ehdr1, GET_SIZE_PUT_outside _ _ _ _ (by omega), ensz]
  have eprev2 : PREV_BLKP (PUT (PUT m (bp - ps - 4) (PACK (bs + ps + ns) 0))
      (bp + bs + ns - 8) (PACK (bs + ps + ns) 0)) bp = bp - ps := by
    unfold PREV_BLKP
    rw [GET_SIZE_PUT_outside _ _ _ _ (by omega), GET_SIZE_PUT_outside _ _ _ _ (by omega),
      GET_SIZE_of (s := ps) (a := 0) (by omega) hps8 (by norm_num)]
  simp only [coalesce, ehdr0, ehdr1, ehdr2, ep, eftrp, epa, en, ena, esz, epsz, eftrn,
    ensf, enext2, eftr2, eprev2]
  simp

theorem coalesce_keep (m : Mem) (pre : List Blk) (b : Blk) (post : List Blk)
    (hpro1 : GET m 4 = 9) (hpro2 : GET m 8 = 9)
    (hrepr : reprSeg m 16 (pre ++ b :: post))
    (hepi : GET m (12 + sumSizes (pre ++ b :: post)) = 1)
    (hbf : b.alloc = false)
    (hprevA : pre = [] ∨ ∃ pre2 pb, pre = pre2 ++ [pb] ∧ pb.alloc = true)
    (hnextA : post = [] ∨ ∃ nb post2, post = nb :: post2 ∧ nb.alloc = true) :
    coalesce m (16 + sumSizes pre) = (16 + sumSizes pre, m) := by
  rw [reprSeg_append] at hrepr
  obtain ⟨hpre, hb1a, hb2a, hb3a, hb4a, hposta⟩ := hrepr
  have hb1 : 8 ≤ b.size := hb1a
  have hb2 : b.size % 8 = 0 := hb2a
  have hb3 : GET m (16 + sumSizes pre - 4) = b.size := by
    rw [hb3a]; simp [hdrVal, hbf]
  have hpost : reprSeg m (16 + sumSizes pre + b.size) post := hposta
  -- next-neighbour header: ns + 1 with ns the successor size (0 for the epilogue)
  have hnext : ∃ ns, ns % 8 = 0 ∧
      GET m (16 + sumSizes pre + b.size - 4) = ns + 1 := by
    rcases hnextA with rfl | ⟨nb, post2, rfl, hnal⟩
    · refine ⟨0, by norm_num, ?_⟩
      have haddr : 16 + sumSizes pre + b.size - 4 = 12 + sumSizes (pre ++ b :: []) := by
        simp only [sumSizes_append, sumSizes_cons, sumSizes_nil]; omega
      rw [haddr, hepi]
    · obtain ⟨hn1, hn2, hn3, _, _⟩ := hpost
      refine ⟨nb.size, hn2, ?_⟩
      have haddr : 16 + sumSizes pre + b.size - 4 = 16 + sumSizes pre + b.size - 4 := rfl
      rw [hn3]
      simp [hdrVal, hnal]
  obtain ⟨ns, hns8, hnh⟩ := hnext
  -- previous-neighbour facts: footer at bp - 8 and header at bp - ps - 4
  rcases hprevA with rfl | ⟨pre2, pb, rfl, hpal⟩
  · simp only [sumSizes_nil, Nat.add_zero] at hb3 hnh ⊢
    exact coalesce_case1_eq m 16 8 b.size ns (by omega)
      (by rw [show (16 : Nat) - 8 = 8 from rfl, hpro2])
      (by rw [show (16 : Nat) - 8 - 4 = 4 from rfl, hpro1])
      (by norm_num) hb3 hb2 hnh hns8
  · rw [reprSeg_append] at hpre
    obtain ⟨hpre2, hp1a, hp2a, hp3a, hp4a, _⟩ := hpre
    have hp1 : 8 ≤ pb.size := hp1a
    have hp2 : pb.size % 8 = 0 := hp2a
    have hpfoot : GET m (16 + sumSizes pre2 + pb.size - 8) = pb.size + 1 := by
      rw [hp4a]; simp [hdrVal, hpal]
    have hphead : GET m (16 + sumSizes pre2 - 4) = pb.size + 1 := by
      rw [hp3a]; simp [hdrVal, hpal]
    have hsum : sumSizes (pre2 ++ [pb]) = sumSizes pre2 + pb.size := by
      simp only [sumSizes_append, sumSizes_cons, sumSizes_nil]; omega
    apply coalesce_case1_eq m (16 + sumSizes (pre2 ++ [pb])) pb.size b.size ns
      (by omega)
    · rw [show 16 + sumSizes (pre2 ++ [pb]) - 8 = 16 + sumSizes pre2 + pb.size - 8 from by omega]
      exact hpfoot
    · rw [show 16 + sumSizes (pre2 ++ [pb]) - pb.size - 4 = 16 + sumSizes pre2 - 4 from by omega]
      exact hphead
    · exact hp2
    · exact hb3
    · exact hb2
    · exact hnh
    · exact hns8

theorem coalesce_next (m : Mem) (pre : List Blk) (b nb : Blk) (post2 : List Blk)
    (hpro1 : GET m 4 = 9) (hpro2 : GET m 8 = 9)
    (hrepr : reprSeg m 16 (pre ++ b :: nb :: post2))
    (hbf : b.alloc = false) (hnf : nb.alloc = false)
    (hprevA : pre = [] ∨ ∃ pre2 pb, pre = pre2 ++ [pb] ∧ pb.alloc = true)
    (htot : sumSizes (pre ++ b :: nb :: post2) < 2 ^ 32) :
    coalesce m (16 + sumSizes pre) = (16 + sumSizes pre,
      PUT (PUT m (16 + sumSizes pre - 4) (PACK (b.size + nb.size) 0))
        (16 + sumSizes pre + b.size + nb.size - 8) (PACK (b.size + nb.size) 0)) ∧
    reprSeg (PUT (PUT m (16 + sumSizes pre - 4) (PACK (b.size + nb.size) 0))
        (16 + sumSizes pre + b.size + nb.size - 8) (PACK (b.size + nb.size) 0)) 16
      (pre ++ ⟨b.size + nb.size, false⟩ :: post2) ∧
    (∀ q, q < 12 + sumSizes pre ∨ 12 + sumSizes pre + b.size + nb.size ≤ q →
      PUT (PUT m (16 + sumSizes pre - 4) (PACK (b.size + nb.size) 0))
        (16 + sumSizes pre + b.size + nb.size - 8) (PACK (b.size + nb.size) 0) q = m q) := by
  rw [reprSeg_append] at hrepr
  obtain ⟨hpre, hb1a, hb2a, hb3a, hb4a, hposta⟩ := hrepr
  have hb1 : 8 ≤ b.size := hb1a
  have hb2 : b.size % 8 = 0 := hb2a
  have hb3 : GET m (16 + sumSizes pre - 4) = b.size := by
    rw [hb3a]; simp [hdrVal, hbf]
  obtain ⟨hn1a, hn2a, hn3a, hn4a, hpost2a⟩ := hposta
  have hn1 : 8 ≤ nb.size := hn1a
  have hn2 : nb.size % 8 = 0 := hn2a
  have hn3 : GET m (16 + sumSizes pre + b.size - 4) = nb.size := by
    rw [hn3a]; simp [hdrVal, hnf]
  have hn4 : GET m (16 + sumSizes pre + b.size + nb.size - 8) = nb.size := by
    rw [hn4a]; simp [hdrVal, hnf]
  have hpost2 : reprSeg m (16 + sumSizes pre + b.size + nb.size) post2 := hpost2a
  have hsumlt : sumSizes pre + b.size + nb.size < 2 ^ 32 := by
    simp only [sumSizes_append, sumSizes_cons] at htot
    omega
  -- the branch equation
  have heq : coalesce m (16 + sumSizes pre) = (16 + sumSizes pre,
      PUT (PUT m (16 + sumSizes pre - 4) (PACK (b.size + nb.size) 0))
        (16 + sumSizes pre + b.size + nb.size - 8) (PACK (b.size + nb.size) 0)) := by
    rcases hprevA with rfl | ⟨pre2, pb, rfl, hpal⟩
    · simp only [sumSizes_nil, Nat.add_zero] at hb3 hn3 hn4 ⊢
      have h := coalesce_case2_eq m 16 8 b.size nb.size (by omega)
        (by rw [show (16 : Nat) - 8 = 8 from rfl, hpro2])
        (by rw [show (16 : Nat) - 8 - 4 = 4 from rfl, hpro1])
        (by norm_num) hb3 hb2 hn3 hn2 (by omega)
      rw [h]
    · rw [reprSeg_append] at hpre
      obtain ⟨hpre2, hp1a, hp2a, hp3a, hp4a, _⟩ := hpre
      have hp1 : 8 ≤ pb.size := hp1a
      have hp2 : pb.size % 8 = 0 := hp2a
      have hpfoot : GET m (16 + sumSizes pre2 + pb.size - 8) = pb.size + 1 := by
        rw [hp4a]; simp [hdrVal, hpal]
      have hphead : GET m (16 + sumSizes pre2 - 4) = pb.size + 1 := by
        rw [hp3a]; simp [hdrVal, hpal]
      have hsum : sumSizes (pre2 ++ [pb]) = sumSizes pre2 + pb.size := by
        simp only [sumSizes_append, sumSizes_cons, sumSizes_nil]; omega
      have h := coalesce_case2_eq m (16 + sumSizes (pre2 ++ [pb])) pb.size b.size nb.size
        (by omega)
        (by rw [show 16 + sumSizes (pre2 ++ [pb]) - 8
              = 16 + sumSizes pre2 + pb.size - 8 from by omega]
            exact hpfoot)
        (by rw [show 16 + sumSizes (pre2 ++ [pb]) - pb.size - 4
              = 16 + sumSizes pre2 - 4 from by omega]
            exact hphead)
        hp2 hb3 hb2 hn3 hn2 (by omega)
      rw [h]
  refine ⟨heq, ?_, ?_⟩
  · -- representation of the merged list
    have hfr : ∀ q, q < 12 + sumSizes pre ∨ 12 + sumSizes pre + b.size + nb.size ≤ q →
        PUT (PUT m (16 + sumSizes pre - 4) (PACK (b.size + nb.size) 0))
          (16 + sumSizes pre + b.size + nb.size - 8) (PACK (b.size + nb.size) 0) q = m q := by
      intro q hq
      rw [PUT_outside _ _ _ _ (by omega), PUT_outside _ _ _ _ (by omega)]
    rw [reprSeg_append]
    constructor
    · exact reprSeg_congr (fun q hq1 hq2 => hfr q (by omega)) hpre
    · show reprSeg _ (16 + sumSizes pre) (⟨b.size + nb.size, false⟩ :: post2)
      refine ⟨(show 8 ≤ b.size + nb.size by omega), (show (b.size + nb.size) % 8 = 0 by omega),
        ?_, ?_, ?_⟩
      · rw [show hdrVal ⟨b.size + nb.size, false⟩ = b.size + nb.size by simp [hdrVal]]
        rw [GET_PUT_outside _ _ _ _ (by omega),
          GET_PUT_pack _ _ _ _ (by omega) (by norm_num) (by omega)]
        omega
      · rw [show hdrVal ⟨b.size + nb.size, false⟩ = b.size + nb.size by simp [hdrVal],
          show 16 + sumSizes pre + (b.size + nb.size) - 8
            = 16 + sumSizes pre + b.size + nb.size - 8 by omega]
        rw [GET_PUT_pack _ _ _ _ (by omega) (by norm_num) (by omega)]
        omega
      · show reprSeg _ (16 + sumSizes pre + (b.size + nb.size)) post2
        rw [show 16 + sumSizes pre + (b.size + nb.size)
          = 16 + sumSizes pre + b.size + nb.size by omega]
        refine reprSeg_congr (fun q hq1 hq2 => ?_) hpost2
        rw [PUT_outside _ _ _ _ (by omega), PUT_outside _ _ _ _ (by omega)]
  · intro q hq
    rw [PUT_outside _ _ _ _ (by omega), PUT_outside _ _ _ _ (by omega)]

theorem coalesce_prev (m : Mem) (pre2 : List Blk) (pb b : Blk) (post : List Blk)
    (_hpro1 : GET m 4 = 9) (_hpro2 : GET m 8 = 9)
    (hrepr : reprSeg m 16 ((pre2 ++ [pb]) ++ b :: post))
    (hepi : GET m (12 + sumSizes ((pre2 ++ [pb]) ++ b :: post)) = 1)
    (hbf : b.alloc = false) (hpbf : pb.alloc = false)
    (hnextA : post = [] ∨ ∃ nb post3, post = nb :: post3 ∧ nb.alloc = true)
    (htot : sumSizes ((pre2 ++ [pb]) ++ b :: post) < 2 ^ 32) :
    coalesce m (16 + sumSizes (pre2 ++ [pb])) = (16 + sumSizes pre2,
      PUT (PUT m (16 + sumSizes (pre2 ++ [pb]) + b.size - 8) (PACK (b.size + pb.size) 0))
        (16 + sumSizes pre2 - 4) (PACK (b.size + pb.size) 0)) ∧
    reprSeg (PUT (PUT m (16 + sumSizes (pre2 ++ [pb]) + b.size - 8)
        (PACK (b.size + pb.size) 0)) (16 + sumSizes pre2 - 4) (PACK (b.size + pb.size) 0)) 16
      (pre2 ++ ⟨pb.size + b.size, false⟩ :: post) ∧
    (∀ q, q < 12 + sumSizes pre2 ∨ 12 + sumSizes pre2 + pb.size + b.size ≤ q →
      PUT (PUT m (16 + sumSizes (pre2 ++ [pb]) + b.size - 8) (PACK (b.size + pb.size) 0))
        (16 + sumSizes pre2 - 4) (PACK (b.size + pb.size) 0) q = m q) := by
  have hsum : sumSizes (pre2 ++ [pb]) = sumSizes pre2 + pb.size := by
    simp only [sumSizes_append, sumSizes_cons, sumSizes_nil]; omega
  rw [reprSeg_append] at hrepr
  obtain ⟨hpre, hb1a, hb2a, hb3a, hb4a, hposta⟩ := hrepr
  have hb1 : 8 ≤ b.size := hb1a
  have hb2 : b.size % 8 = 0 := hb2a
  have hb3 : GET m (16 + sumSizes (pre2 ++ [pb]) - 4) = b.size := by
    rw [hb3a]; simp [hdrVal, hbf]
  have hpost : reprSeg m (16 + sumSizes (pre2 ++ [pb]) + b.size) post := hposta
  rw [reprSeg_append] at hpre
  obtain ⟨hpre2, hp1a, hp2a, hp3a, hp4a, _⟩ := hpre
  have hp1 : 8 ≤ pb.size := hp1a
  have hp2 : pb.size % 8 = 0 := hp2a
  have hpfoot : GET m (16 + sumSizes pre2 + pb.size - 8) = pb.size := by
    rw [hp4a]; simp [hdrVal, hpbf]
  have hphead : GET m (16 + sumSizes pre2 - 4) = pb.size := by
    rw [hp3a]; simp [hdrVal, hpbf]
  have hsumlt : sumSizes pre2 + pb.size + b.size < 2 ^ 32 := by
    simp only [sumSizes_append, sumSizes_cons, sumSizes_nil] at htot
    omega
  have hnext : ∃ ns, ns % 8 = 0 ∧
      GET m (16 + sumSizes (pre2 ++ [pb]) + b.size - 4) = ns + 1 := by
    rcases hnextA with rfl | ⟨nb, post3, rfl, hnal⟩
    · refine ⟨0, by norm_num, ?_⟩
      have haddr : 16 + sumSizes (pre2 ++ [pb]) + b.size - 4
          = 12 + sumSizes ((pre2 ++ [pb]) ++ b :: []) := by
        simp only [sumSizes_append, sumSizes_cons, sumSizes_nil]; omega
      rw [haddr, hepi]
    · obtain ⟨hn1, hn2, hn3, _, _⟩ := hpost
      refine ⟨nb.size, hn2, ?_⟩
      rw [hn3]
      simp [hdrVal, hnal]
  obtain ⟨ns, hns8, hnh⟩ := hnext
  have heq := coalesce_case3_eq m (16 + sumSizes (pre2 ++ [pb])) pb.size b.size ns
    (by omega) hp1
    (by rw [show 16 + sumSizes (pre2 ++ [pb]) - 8
          = 16 + sumSizes pre2 + pb.size - 8 from by omega]
        exact hpfoot)
    (by rw [show 16 + sumSizes (pre2 ++ [pb]) - pb.size - 4
          = 16 + sumSizes pre2 - 4 from by omega]
        exact hphead)
    hp2 hb3 hb2 hb1 hnh hns8
  rw [show 16 + sumSizes (pre2 ++ [pb]) - pb.size = 16 + sumSizes pre2 from by omega] at heq
  have hfr : ∀ q, q < 12 + sumSizes pre2 ∨ 12 + sumSizes pre2 + pb.size + b.size ≤ q →
      PUT (PUT m (16 + sumSizes (pre2 ++ [pb]) + b.size - 8) (PACK (b.size + pb.size) 0))
        (16 + sumSizes pre2 - 4) (PACK (b.size + pb.size) 0) q = m q := by
    intro q hq
    rw [PUT_outside _ _ _ _ (by omega), PUT_outside _ _ _ _ (by omega)]
  refine ⟨heq, ?_, hfr⟩
  rw [reprSeg_append]
  constructor
  · exact reprSeg_congr (fun q hq1 hq2 => hfr q (by omega)) hpre2
  · show reprSeg _ (16 + sumSizes pre2) (⟨pb.size + b.size, false⟩ :: post)
    refine ⟨(show 8 ≤ pb.size + b.size by omega), (show (pb.size + b.size) % 8 = 0 by omega),
      ?_, ?_, ?_⟩
    · rw [show hdrVal ⟨pb.size + b.size, false⟩ = pb.size + b.size by simp [hdrVal]]
      rw [GET_PUT_pack _ _ _ _ (by omega) (by norm_num) (by omega)]
      omega
    · rw [show hdrVal ⟨pb.size + b.size, false⟩ = pb.size + b.size by simp [hdrVal],
        show 16 + sumSizes pre2 + (pb.size + b.size) - 8
          = 16 + sumSizes (pre2 ++ [pb]) + b.size - 8 by omega]
      rw [GET_PUT_outside _ _ _ _ (by omega),
        GET_PUT_pack _ _ _ _ (by omega) (by norm_num) (by omega)]
      omega
    · show reprSeg _ (16 + sumSizes pre2 + (pb.size + b.size)) post
      rw [show 16 + sumSizes pre2 + (pb.size + b.size)
        = 16 + sumSizes (pre2 ++ [pb]) + b.size by omega]
      refine reprSeg_congr (fun q hq1 hq2 => ?_) hpost
      rw [PUT_outside _ _ _ _ (by omega), PUT_outside _ _ _ _ (by omega)]

theorem coalesce_both (m : Mem) (pre2 : List Blk) (pb b nb : Blk) (post3 : List Blk)
    (hrepr : reprSeg m 16 ((pre2 ++ [pb]) ++ b :: nb :: post3))
    (hbf : b.alloc = false) (hpbf : pb.alloc = false) (hnbf : nb.alloc = false)
    (htot : sumSizes ((pre2 ++ [pb]) ++ b :: nb :: post3) < 2 ^ 32) :
    coalesce m (16 + sumSizes (pre2 ++ [pb])) = (16 + sumSizes pre2,
      PUT (PUT m (16 + sumSizes pre2 - 4) (PACK (b.size + pb.size + nb.size) 0))
        (16 + sumSizes (pre2 ++ [pb]) + b.size + nb.size - 8)
        (PACK (b.size + pb.size + nb.size) 0)) ∧
    reprSeg (PUT (PUT m (16 + sumSizes pre2 - 4) (PACK (b.size + pb.size + nb.size) 0))
        (16 + sumSizes (pre2 ++ [pb]) + b.size + nb.size - 8)
        (PACK (b.size + pb.size + nb.size) 0)) 16
      (pre2 ++ ⟨pb.size + b.size + nb.size, false⟩ :: post3) ∧
    (∀ q, q < 12 + sumSizes pre2 ∨ 12 + sumSizes pre2 + pb.size + b.size + nb.size ≤ q →
      PUT (PUT m (16 + sumSizes pre2 - 4) (PACK (b.size + pb.size + nb.size) 0))
        (16 + sumSizes (pre2 ++ [pb]) + b.size + nb.size - 8)
        (PACK (b.size + pb.size + nb.size) 0) q = m q) := by
  have hsum : sumSizes (pre2 ++ [pb]) = sumSizes pre2 + pb.size := by
    simp only [sumSizes_append, sumSizes_cons, sumSizes_nil]; omega
  rw [reprSeg_append] at hrepr
  obtain ⟨hpre, hb1a, hb2a, hb3a, hb4a, hposta⟩ := hrepr
  have hb1 : 8 ≤ b.size := hb1a
  have hb2 : b.size % 8 = 0 := hb2a
  have hb3 : GET m (16 + sumSizes (pre2 ++ [pb]) - 4) = b.size := by
    rw [hb3a]; simp [hdrVal, hbf]
  obtain ⟨hn1a, hn2a, hn3a, hn4a, hpost3a⟩ := hposta
  have hn1 : 8 ≤ nb.size := hn1a
  have hn2 : nb.size % 8 = 0 := hn2a
  have hn3 : GET m (16 + sumSizes (pre2 ++ [pb]) + b.size - 4) = nb.size := by
    rw [hn3a]; simp [hdrVal, hnbf]
  have hn4 : GET m (16 + sumSizes (pre2 ++ [pb]) + b.size + nb.size - 8) = nb.size := by
    rw [hn4a]; simp [hdrVal, hnbf]
  have hpost3 : reprSeg m (16 + sumSizes (pre2 ++ [pb]) + b.size + nb.size) post3 := hpost3a
  rw [reprSeg_append] at hpre
  obtain ⟨hpre2, hp1a, hp2a, hp3a, hp4a, _⟩ := hpre
  have hp1 : 8 ≤ pb.size := hp1a
  have hp2 : pb.size % 8 = 0 := hp2a
  have hpfoot : GET m (16 + sumSizes pre2 + pb.size - 8) = pb.size := by
    rw [hp4a]; simp [hdrVal, hpbf]
  have hphead : GET m (16 + sumSizes pre2 - 4) = pb.size := by
    rw [hp3a]; simp [hdrVal, hpbf]
  have hsumlt : sumSizes pre2 + pb.size + b.size + nb.size < 2 ^ 32 := by
    simp only [sumSizes_append, sumSizes_cons, sumSizes_nil] at htot
    omega
  have heq := coalesce_case4_eq m (16 + sumSizes (pre2 ++ [pb])) pb.size b.size nb.size
    (by omega) hp1
    (by rw [show 16 + sumSizes (pre2 ++ [pb]) - 8
          = 16 + sumSizes pre2 + pb.size - 8 from by omega]
        exact hpfoot)
    (by rw [show 16 + sumSizes (pre2 ++ [pb]) - pb.size - 4
          = 16 + sumSizes pre2 - 4 from by omega]
        exact hphead)
    hp2 hb3 hb2 hb1 hn3 hn2 hn4
  rw [show 16 + sumSizes (pre2 ++ [pb]) - pb.size = 16 + sumSizes pre2 from by omega] at heq
  have hfr : ∀ q, q < 12 + sumSizes pre2 ∨
      12 + sumSizes pre2 + pb.size + b.size + nb.size ≤ q →
      PUT (PUT m (16 + sumSizes pre2 - 4) (PACK (b.size + pb.size + nb.size) 0))
        (16 + sumSizes (pre2 ++ [pb]) + b.size + nb.size - 8)
        (PACK (b.size + pb.size + nb.size) 0) q = m q := by
    intro q hq
    rw [PUT_outside _ _ _ _ (by omega), PUT_outside _ _ _ _ (by omega)]
  refine ⟨heq, ?_, hfr⟩
  rw [reprSeg_append]
  constructor
  · exact reprSeg_congr (fun q hq1 hq2 => hfr q (by omega)) hpre2
  · show reprSeg _ (16 + sumSizes pre2) (⟨pb.size + b.size + nb.size, false⟩ :: post3)
    refine ⟨(show 8 ≤ pb.size + b.size + nb.size by omega),
      (show (pb.size + b.size + nb.size) % 8 = 0 by omega), ?_, ?_, ?_⟩
    · rw [show hdrVal ⟨pb.size + b.size + nb.size, false⟩
        = pb.size + b.size + nb.size by simp [hdrVal]]
      rw [GET_PUT_outside _ _ _ _ (by omega),
        GET_PUT_pack _ _ _ _ (by omega) (by norm_num) (by omega)]
      omega
    · rw [show hdrVal ⟨pb.size + b.size + nb.size, false⟩
        = pb.size + b.size + nb.size by simp [hdrVal],
        show 16 + sumSizes pre2 + (pb.size + b.size + nb.size) - 8
          = 16 + sumSizes (pre2 ++ [pb]) + b.size + nb.size - 8 by omega]
      rw [GET_PUT_pack _ _ _ _ (by omega) (by norm_num) (by omega)]
      omega
    · show reprSeg _ (16 + sumSizes pre2 + (pb.size + b.size + nb.size)) post3
      rw [show 16 + sumSizes pre2 + (pb.size + b.size + nb.size)
        = 16 + sumSizes (pre2 ++ [pb]) + b.size + nb.size by omega]
      refine reprSeg_congr (fun q hq1 hq2 => ?_) hpost3
      rw [PUT_outside _ _ _ _ (by omega), PUT_outside _ _ _ _ (by omega)]

end MM

namespace MM

theorem reprSeg_sum_mod8 {m : Mem} {a : Nat} {bl : List Blk} (hr : reprSeg m a bl) :
    sumSizes bl % 8 = 0 := by
  induction bl generalizing a with
  | nil => rfl
  | cons b bl ih =>
    obtain ⟨_, h2, _, _, h5⟩ := hr
    have := ih h5
    simp only [sumSizes_cons]
    omega

theorem roundWords_spec (words : Nat) (h : words < 2 ^ 62 - 1) :
    roundWords words % 8 = 0 ∧ words * 4 ≤ roundWords words ∧
      roundWords words ≤ words * 4 + 4 := by
  unfold roundWords
  rcases Nat.lt_or_ge (words % 2) 1 with h2 | h2
  · rw [if_neg (show ¬(words % 2 = 1) by omega)]
    rw [Nat.mod_eq_of_lt (show words * 4 < 2 ^ 64 by omega)]
    omega
  · rw [if_pos (show words % 2 = 1 by omega)]
    rw [Nat.mod_eq_of_lt (show (words + 1) * 4 < 2 ^ 64 by omega)]
    omega

theorem extend_heap_fail (st : AState) (words : Nat)
    (h : st.maxHeap < st.brk + roundWords words) : extend_heap st words = none := by
  simp only [extend_heap, mem_sbrk, if_neg (show ¬(st.brk + roundWords words ≤ st.maxHeap)
    by omega)]

theorem extend_heap_eq (st : AState) (words esize : Nat) (hes : roundWords words = esize)
    (he8 : esize % 8 = 0) (he : 8 ≤ esize) (he32 : esize < 2 ^ 32)
    (hok : st.brk + esize ≤ st.maxHeap) (hbrk : 8 ≤ st.brk) :
    extend_heap st words =
      some ((coalesce (PUT (PUT (PUT st.mem (st.brk - 4) (PACK esize 0))
          (st.brk + esize - 8) (PACK esize 0)) (st.brk + esize - 4) (PACK 0 1)) st.brk).1,
        { st with
            brk := st.brk + esize
            mem := (coalesce (PUT (PUT (PUT st.mem (st.brk - 4) (PACK esize 0))
              (st.brk + esize - 8) (PACK esize 0)) (st.brk + esize - 4) (PACK 0 1)) st.brk).2 }) := by
  have eF : FTRP (PUT st.mem (HDRP st.brk) (PACK esize 0)) st.brk = st.brk + esize - 8 := by
    unfold FTRP
    rw [GET_SIZE_PUT_pack st.mem (HDRP st.brk) esize 0 he8 (by norm_num) (by omega)]
  have eN : NEXT_BLKP (PUT (PUT st.mem (HDRP st.brk) (PACK esize 0))
      (st.brk + esize - 8) (PACK esize 0)) st.brk = st.brk + esize := by
    unfold NEXT_BLKP
    rw [GET_SIZE_PUT_outside _ _ _ _ (by unfold HDRP; omega),
      GET_SIZE_PUT_pack st.mem (HDRP st.brk) esize 0 he8 (by norm_num) (by omega)]
  simp only [extend_heap, hes, mem_sbrk, if_pos hok, eF, eN]
  rfl

theorem extend_heap_spec (st : AState) (bl : List Blk) (words : Nat) (hw : wf st bl)
    (hw2 : 2 ≤ words) (hwhi : words < 2 ^ 62 - 1)
    (hok : st.brk + roundWords words ≤ st.maxHeap) :
    ∃ bp' st' bl2 fs,
      extend_heap st words = some (bp', st') ∧
      wf st' (bl2 ++ [⟨fs, false⟩]) ∧
      bp' = 16 + sumSizes bl2 ∧
      roundWords words ≤ fs ∧
      sumSizes (bl2 ++ [⟨fs, false⟩]) = sumSizes bl + roundWords words ∧
      (∀ q, q < 12 + sumSizes bl2 → st'.mem q = st.mem q) ∧
      (bl2 = bl ∨ ∃ pb, pb.alloc = false ∧ bl = bl2 ++ [pb]) := by
  obtain ⟨hlp, hpro1, hpro2, hrepr, hepi, hbrk, hmx, hmx32⟩ := hw
  obtain ⟨hr8, hrlo, hrhi⟩ := roundWords_spec words hwhi
  obtain ⟨esize, hes⟩ : ∃ e, roundWords words = e := ⟨_, rfl⟩
  rw [hes] at hok hr8 hrlo hrhi ⊢
  have he : 8 ≤ esize := by omega
  have he32 : esize < 2 ^ 32 := by omega
  have heq := extend_heap_eq st words esize hes hr8 he he32 hok (by omega)
  -- facts about the memory after the three writes
  obtain ⟨m3, hm3⟩ : ∃ m3, PUT (PUT (PUT st.mem (st.brk - 4) (PACK esize 0))
      (st.brk + esize - 8) (PACK esize 0)) (st.brk + esize - 4) (PACK 0 1) = m3 := ⟨_, rfl⟩
  rw [hm3] at heq
  have hm3pro1 : GET m3 4 = 9 := by
    rw [← hm3, GET_PUT_outside _ _ _ _ (by omega), GET_PUT_outside _ _ _ _ (by omega),
      GET_PUT_outside _ _ _ _ (by omega)]
    exact hpro1
  have hm3pro2 : GET m3 8 = 9 := by
    rw [← hm3, GET_PUT_outside _ _ _ _ (by omega), GET_PUT_outside _ _ _ _ (by omega),
      GET_PUT_outside _ _ _ _ (by omega)]
    exact hpro2
  have hm3frame : ∀ q, q < 12 + sumSizes bl → m3 q = st.mem q := by
    intro q hq
    rw [← hm3, PUT_outside _ _ _ _ (by omega), PUT_outside _ _ _ _ (by omega),
      PUT_outside _ _ _ _ (by omega)]
  have hm3repr_bl : reprSeg m3 16 bl :=
    reprSeg_congr (fun q hq1 hq2 => hm3frame q (by omega)) hrepr
  have hm3new_h : GET m3 (st.brk - 4) = esize := by
    rw [← hm3, GET_PUT_outside _ _ _ _ (by omega), GET_PUT_outside _ _ _ _ (by omega),
      GET_PUT_pack _ _ _ _ hr8 (by norm_num) (by omega)]
    omega
  have hm3new_f : GET m3 (st.brk + esize - 8) = esize := by
    rw [← hm3, GET_PUT_outside _ _ _ _ (by omega),
      GET_PUT_pack _ _ _ _ hr8 (by norm_num) (by omega)]
    omega
  have hm3epi : GET m3 (st.brk + esize - 4) = 1 := by
    rw [← hm3, GET_PUT_pack _ _ _ _ (by norm_num) (by norm_num) (by norm_num)]
  have hm3repr : reprSeg m3 16 (bl ++ [⟨esize, false⟩]) := by
    rw [reprSeg_append]
    refine ⟨hm3repr_bl, (show 8 ≤ esize from he), hr8, ?_, ?_, trivial⟩
    · rw [show 16 + sumSizes bl - 4 = st.brk - 4 by omega,
        show hdrVal ⟨esize, false⟩ = esize by simp [hdrVal]]
      exact hm3new_h
    · rw [show 16 + sumSizes bl + esize - 8 = st.brk + esize - 8 by omega,
        show hdrVal ⟨esize, false⟩ = esize by simp [hdrVal]]
      exact hm3new_f
  have hm3epi2 : GET m3 (12 + sumSizes (bl ++ [⟨esize, false⟩])) = 1 := by
    rw [show 12 + sumSizes (bl ++ [⟨esize, false⟩]) = st.brk + esize - 4 by
      simp only [sumSizes_append, sumSizes_cons, sumSizes_nil]; omega]
    exact hm3epi
  have htot : sumSizes (bl ++ [⟨esize, false⟩]) < 2 ^ 32 := by
    simp only [sumSizes_append, sumSizes_cons, sumSizes_nil]
    omega
  have hsumnew : sumSizes (bl ++ [⟨esize, false⟩]) = sumSizes bl + esize := by
    simp only [sumSizes_append, sumSizes_cons, sumSizes_nil]
    omega
  rcases List.eq_nil_or_concat bl with hnil | ⟨bl2, pb, hcat⟩
  · -- empty chain: the new block's predecessor is the prologue
    subst hnil
    have hco : coalesce m3 (16 + sumSizes ([] : List Blk)) = (16 + sumSizes ([] : List Blk), m3) :=
      coalesce_keep m3 [] ⟨esize, false⟩ [] hm3pro1 hm3pro2 hm3repr hm3epi2 rfl
        (Or.inl rfl) (Or.inl rfl)
    rw [show (16 : Nat) + sumSizes ([] : List Blk) = st.brk by
      simp only [sumSizes_nil] at hbrk ⊢; omega] at hco
    have heq2 : extend_heap st words = some (st.brk,
        { st with brk := st.brk + esize, mem := m3 }) := by rw [heq, hco]
    refine ⟨st.brk, { st with brk := st.brk + esize, mem := m3 }, [], esize, heq2, ?_, by
      simp only [sumSizes_nil] at hbrk ⊢; omega, le_refl _, by
      simp only [sumSizes_append, sumSizes_cons, sumSizes_nil]; omega,
      fun q hq => hm3frame q (by simp only [sumSizes_nil] at hq; omega), Or.inl rfl⟩
    exact ⟨hlp, hm3pro1, hm3pro2, hm3repr, hm3epi2, by
      simp only [sumSizes_append, sumSizes_cons, sumSizes_nil] at hbrk ⊢; omega,
      by simpa [hsumnew] using hok, hmx32⟩
  · rw [List.concat_eq_append] at hcat
    subst hcat
    cases hpal : pb.alloc with
    | true =>
      have hco : coalesce m3 (16 + sumSizes (bl2 ++ [pb]))
          = (16 + sumSizes (bl2 ++ [pb]), m3) :=
        coalesce_keep m3 (bl2 ++ [pb]) ⟨esize, false⟩ [] hm3pro1 hm3pro2 hm3repr hm3epi2 rfl
          (Or.inr ⟨bl2, pb, rfl, hpal⟩) (Or.inl rfl)
      rw [show 16 + sumSizes (bl2 ++ [pb]) = st.brk by omega] at hco
      have heq2 : extend_heap st words = some (st.brk,
          { st with brk := st.brk + esize, mem := m3 }) := by rw [heq, hco]
      refine ⟨st.brk, { st with brk := st.brk + esize, mem := m3 }, bl2 ++ [pb], esize,
        heq2, ?_, by omega, le_refl _, by omega, fun q hq => hm3frame q (by omega),
        Or.inl rfl⟩
      exact ⟨hlp, hm3pro1, hm3pro2, hm3repr, hm3epi2, by
        simp only [sumSizes_append, sumSizes_cons, sumSizes_nil] at hbrk ⊢; omega,
        by simpa [hsumnew] using hok, hmx32⟩
    | false =>
      obtain ⟨hco, hrepr4, hfr4⟩ := coalesce_prev m3 bl2 pb ⟨esize, false⟩ []
        hm3pro1 hm3pro2 hm3repr hm3epi2 rfl hpal (Or.inl rfl) htot
      dsimp only at hco hrepr4 hfr4
      obtain ⟨m4, hm4⟩ : ∃ m4, (coalesce m3 (16 + sumSizes (bl2 ++ [pb]))).2 = m4 := ⟨_, rfl⟩
      rw [hco] at hm4
      dsimp only at hm4
      rw [hm4] at hco hrepr4 hfr4
      rw [show 16 + sumSizes (bl2 ++ [pb]) = st.brk by omega] at hco
      have hsum2 : sumSizes (bl2 ++ [pb]) = sumSizes bl2 + pb.size := by
        simp only [sumSizes_append, sumSizes_cons, sumSizes_nil]; omega
      have hsum3 : sumSizes (bl2 ++ [⟨pb.size + esize, false⟩])
          = sumSizes bl2 + pb.size + esize := by
        simp only [sumSizes_append, sumSizes_cons, sumSizes_nil]; omega
      have hp8a : pb.size % 8 = 0 ∧ 8 ≤ pb.size := by
        rw [reprSeg_append] at hm3repr
        obtain ⟨h1, _⟩ := hm3repr
        rw [reprSeg_append] at h1
        obtain ⟨_, hx1, hx2, _⟩ := h1
        exact ⟨hx2, hx1⟩
      have hfro : ∀ p, p + 4 ≤ 12 + sumSizes bl2 ∨
          12 + sumSizes bl2 + pb.size + esize ≤ p → GET m4 p = GET m3 p := by
        intro p hp
        exact GET_congr m3 m4 p fun q hq1 hq2 => hfr4 q (by omega)
      have hpro14 : GET m4 4 = 9 := by rw [hfro 4 (by omega)]; exact hm3pro1
      have hpro24 : GET m4 8 = 9 := by rw [hfro 8 (by omega)]; exact hm3pro2
      have hepi4 : GET m4 (12 + sumSizes (bl2 ++ [⟨pb.size + esize, false⟩])) = 1 := by
        rw [hfro _ (by omega)]
        rw [show 12 + sumSizes (bl2 ++ [⟨pb.size + esize, false⟩])
          = 12 + sumSizes ((bl2 ++ [pb]) ++ [⟨esize, false⟩]) by
          simp only [sumSizes_append, sumSizes_cons, sumSizes_nil]; omega]
        exact hm3epi2
      have heq2 : extend_heap st words = some (16 + sumSizes bl2,
          { st with brk := st.brk + esize, mem := m4 }) := by rw [heq, hco]
      refine ⟨16 + sumSizes bl2, { st with brk := st.brk + esize, mem := m4 }, bl2,
        pb.size + esize, heq2, ?_, rfl, by omega, by omega, ?_,
        Or.inr ⟨pb, hpal, rfl⟩⟩
      · exact ⟨hlp, hpro14, hpro24, hrepr4, hepi4, by
          show st.brk + esize = 16 + sumSizes (bl2 ++ [⟨pb.size + esize, false⟩])
          omega, by
          show st.brk + esize ≤ st.maxHeap
          omega, hmx32⟩
      · intro q hq
        show m4 q = st.mem q
        rw [hfr4 q (Or.inl hq)]
        exact hm3frame q (by omega)

theorem blk_eta_false {b : Blk} (h : b.alloc = false) : b = ⟨b.size, false⟩ := by
  rcases b with ⟨s, a⟩
  simp only at h
  rw [h]

theorem asizeOf_spec (n : Nat) (h1 : 1 ≤ n) (h2 : n + 16 ≤ 2 ^ 64) :
    asizeOf n % 8 = 0 ∧ 16 ≤ asizeOf n ∧ n + 8 ≤ asizeOf n ∧ asizeOf n ≤ n + 15 := by
  unfold asizeOf
  by_cases h : n ≤ 8
  · rw [if_pos h]
    omega
  · rw [if_neg h]
    rw [Nat.mod_eq_of_lt (show n + 8 + (8 - 1) < 2 ^ 64 by omega)]
    omega

theorem asizeOf_lt (n : Nat) : asizeOf n < 2 ^ 64 ∧ asizeOf n % 8 = 0 := by
  unfold asizeOf
  by_cases h : n ≤ 8
  · rw [if_pos h]
    norm_num
  · rw [if_neg h]
    have hm : (n + 8 + (8 - 1)) % 2 ^ 64 < 2 ^ 64 := Nat.mod_lt _ (by norm_num)
    omega

theorem malloc_extendsize_spec (n : Nat) :
    2 ≤ max (asizeOf n) 4096 / 4 ∧ max (asizeOf n) 4096 / 4 < 2 ^ 62 - 1 ∧
      roundWords (max (asizeOf n) 4096 / 4) = max (asizeOf n) 4096 ∧
      asizeOf n ≤ max (asizeOf n) 4096 := by
  obtain ⟨hlt, h8⟩ := asizeOf_lt n
  have hmax8 : max (asizeOf n) 4096 % 8 = 0 := by
    rcases Nat.le_total (asizeOf n) 4096 with h | h
    · rw [Nat.max_eq_right h]
    · rw [Nat.max_eq_left h]
      exact h8
  have hmaxlo : 4096 ≤ max (asizeOf n) 4096 := le_max_right _ _
  have hmaxhi : max (asizeOf n) 4096 < 2 ^ 64 := by
    rcases Nat.le_total (asizeOf n) 4096 with h | h
    · rw [Nat.max_eq_right h]
      norm_num
    · rw [Nat.max_eq_left h]
      exact hlt
  refine ⟨by omega, by omega, ?_, le_max_left _ _⟩
  unfold roundWords
  rw [if_neg (show ¬(max (asizeOf n) 4096 / 4 % 2 = 1) by omega)]
  rw [Nat.mod_eq_of_lt (by omega)]
  omega

theorem mm_malloc_eq_fit (st : AState) (n bp : Nat) (h0 : n ≠ 0)
    (hf : find_fit st (asizeOf n) = some bp) :
    mm_malloc st n = (some bp, { st with mem := place st.mem bp (asizeOf n) }) := by
  simp only [mm_malloc, if_neg h0, hf]

theorem mm_malloc_eq_extend (st : AState) (n : Nat) (bp' : Nat) (st2 : AState) (h0 : n ≠ 0)
    (hf : find_fit st (asizeOf n) = none)
    (he : extend_heap st (max (asizeOf n) 4096 / 4) = some (bp', st2)) :
    mm_malloc st n = (some bp', { st2 with mem := place st2.mem bp' (asizeOf n) }) := by
  simp only [mm_malloc, if_neg h0, hf, he]

theorem place_wf (st : AState) (pre post : List Blk) (csize asize : Nat)
    (hw : wf st (pre ++ ⟨csize, false⟩ :: post))
    (ha8 : asize % 8 = 0) (ha16 : 16 ≤ asize) (hfit : asize ≤ csize) :
    ∃ s post', wf { st with mem := place st.mem (16 + sumSizes pre) asize }
        (pre ++ ⟨s, true⟩ :: post') ∧
      (s = asize ∨ s = asize + 8) ∧ asize ≤ s ∧
      sumSizes (pre ++ ⟨s, true⟩ :: post') = sumSizes (pre ++ ⟨csize, false⟩ :: post) := by
  obtain ⟨hlp, hpro1, hpro2, hrepr, hepi, hbrk, hmx, hmx32⟩ := hw
  have hc8 : csize % 8 = 0 := by
    rw [reprSeg_append] at hrepr
    exact hrepr.2.2.1
  by_cases hsplit : asize + 16 ≤ csize
  · obtain ⟨hrepr', hfr⟩ := place_split_spec st.mem pre post csize asize hrepr ha8 ha16 hsplit
    refine ⟨asize, ⟨csize - asize, false⟩ :: post, ?_, Or.inl rfl, le_refl _, by
      simp only [sumSizes_append, sumSizes_cons, sumSizes_nil]; omega⟩
    have hsums : sumSizes (pre ++ ⟨asize, true⟩ :: ⟨csize - asize, false⟩ :: post)
        = sumSizes (pre ++ ⟨csize, false⟩ :: post) := by
      simp only [sumSizes_append, sumSizes_cons, sumSizes_nil]; omega
    have hsumold : sumSizes (pre ++ ⟨csize, false⟩ :: post)
        = sumSizes pre + csize + sumSizes post := by
      simp only [sumSizes_append, sumSizes_cons, sumSizes_nil]; omega
    refine ⟨hlp, ?_, ?_, hrepr', ?_, ?_, hmx, hmx32⟩
    · rw [GET_congr st.mem _ 4 fun q h1 h2 => hfr q (by omega)]
      exact hpro1
    · rw [GET_congr st.mem _ 8 fun q h1 h2 => hfr q (by omega)]
      exact hpro2
    · rw [hsums]
      rw [GET_congr st.mem _ (12 + sumSizes (pre ++ ⟨csize, false⟩ :: post))
        fun q h1 h2 => hfr q (by omega)]
      exact hepi
    · rw [hsums]
      exact hbrk
  · obtain ⟨hrepr', hfr⟩ := place_nosplit_spec st.mem pre post csize asize hrepr hfit
      (by omega)
    refine ⟨csize, post, ?_, by omega, hfit, by
      simp only [sumSizes_append, sumSizes_cons, sumSizes_nil]⟩
    have hsumold : sumSizes (pre ++ ⟨csize, false⟩ :: post)
        = sumSizes pre + csize + sumSizes post := by
      simp only [sumSizes_append, sumSizes_cons, sumSizes_nil]; omega
    have hsums : sumSizes (pre ++ ⟨csize, true⟩ :: post)
        = sumSizes (pre ++ ⟨csize, false⟩ :: post) := by
      simp only [sumSizes_append, sumSizes_cons, sumSizes_nil]
    refine ⟨hlp, ?_, ?_, hrepr', ?_, ?_, hmx, hmx32⟩
    · rw [GET_congr st.mem _ 4 fun q h1 h2 => hfr q (by omega)]
      exact hpro1
    · rw [GET_congr st.mem _ 8 fun q h1 h2 => hfr q (by omega)]
      exact hpro2
    · rw [hsums]
      rw [GET_congr st.mem _ (12 + sumSizes (pre ++ ⟨csize, false⟩ :: post))
        fun q h1 h2 => hfr q (by omega)]
      exact hepi
    · rw [hsums]
      exact hbrk

theorem mm_malloc_spec (st : AState) (bl : List Blk) (n : Nat) (hw : wf st bl)
    (hn : 1 ≤ n) (hover : n + 16 ≤ 2 ^ 64) :
    (mm_malloc st n).1 = none ∨
    ∃ bp st' bl' pre post s,
      mm_malloc st n = (some bp, st') ∧ wf st' bl' ∧
      bl' = pre ++ ⟨s, true⟩ :: post ∧ bp = 16 + sumSizes pre ∧
      (s = asizeOf n ∨ s = asizeOf n + 8) ∧ n + 8 ≤ s := by
  obtain ⟨ha8, ha16, hage, hale⟩ := asizeOf_spec n hn hover
  cases hf : find_fit st (asizeOf n) with
  | some bp =>
    right
    have hff : firstFit bl 16 (asizeOf n) = some bp := by
      rw [← find_fit_spec st bl _ hw, hf]
    obtain ⟨pre, b, post, hbl, hbp, hal, hfit⟩ := firstFit_decomp hff
    subst hbl
    rw [blk_eta_false hal] at hw
    obtain ⟨s, post', hw', hsor, hsge, _⟩ :=
      place_wf st pre post b.size (asizeOf n) hw ha8 ha16 hfit
    exact ⟨bp, _, pre ++ ⟨s, true⟩ :: post', pre, post', s,
      by rw [mm_malloc_eq_fit st n bp (by omega) hf, hbp], hw', rfl, hbp, hsor, by omega⟩
  | none =>
    obtain ⟨hes2, heslt, hesround, hesge⟩ := malloc_extendsize_spec n
    by_cases hok : st.brk + roundWords (max (asizeOf n) 4096 / 4) ≤ st.maxHeap
    · obtain ⟨bp', st2, bl2, fs, he, hwf2, hbp2, hfs, hsum2⟩ :=
        extend_heap_spec st bl (max (asizeOf n) 4096 / 4) hw hes2 heslt hok
      right
      have hfit2 : asizeOf n ≤ fs := by
        rw [hesround] at hfs
        omega
      obtain ⟨s, post', hw', hsor, hsge, _⟩ :=
        place_wf st2 bl2 [] fs (asizeOf n) hwf2 ha8 ha16 hfit2
      exact ⟨bp', _, bl2 ++ ⟨s, true⟩ :: post', bl2, post', s,
        by rw [mm_malloc_eq_extend st n bp' st2 (by omega) hf he, hbp2], hw', rfl, hbp2,
        hsor, by omega⟩
    · left
      rw [malloc_growth_fail st n (by omega) hf (by
        simp only [mem_sbrk, if_neg (show ¬(st.brk + roundWords (max (asizeOf n) 4096 / 4)
          ≤ st.maxHeap) from hok)])]

theorem mm_malloc_ptr (st : AState) (bl : List Blk) (n bp : Nat) (st' : AState)
    (hw : wf st bl) (h : mm_malloc st n = (some bp, st')) : bp % 8 = 0 := by
  by_cases h0 : n = 0
  · rw [h0, malloc_zero] at h
    exact absurd (congrArg Prod.fst h) (by simp)
  cases hf : find_fit st (asizeOf n) with
  | some bp0 =>
    have hres := mm_malloc_eq_fit st n bp0 h0 hf
    rw [hres] at h
    have hbp : bp = bp0 := by
      have := congrArg Prod.fst h
      simpa using this.symm
    subst hbp
    have hff : firstFit bl 16 (asizeOf n) = some bp := by
      rw [← find_fit_spec st bl _ hw, hf]
    obtain ⟨pre, b, post, hbl, hbp, _, _⟩ := firstFit_decomp hff
    have hpre8 : sumSizes pre % 8 = 0 := by
      obtain ⟨_, _, _, hrepr, _⟩ := hw
      rw [hbl, reprSeg_append] at hrepr
      exact reprSeg_sum_mod8 hrepr.1
    omega
  | none =>
    obtain ⟨hes2, heslt, hesround, hesge⟩ := malloc_extendsize_spec n
    by_cases hok : st.brk + roundWords (max (asizeOf n) 4096 / 4) ≤ st.maxHeap
    · obtain ⟨bp', st2, bl2, fs, he, hwf2, hbp2, hfs, hsum2⟩ :=
        extend_heap_spec st bl (max (asizeOf n) 4096 / 4) hw hes2 heslt hok
      have hres := mm_malloc_eq_extend st n bp' st2 h0 hf he
      rw [hres] at h
      have hbp : bp = bp' := by
        have := congrArg Prod.fst h
        simpa using this.symm
      subst hbp
      have hpre8 : sumSizes bl2 % 8 = 0 := by
        obtain ⟨_, _, _, hrepr, _⟩ := hwf2
        rw [reprSeg_append] at hrepr
        exact reprSeg_sum_mod8 hrepr.1
      omega
    · have hfail := malloc_growth_fail st n h0 hf (by
        simp only [mem_sbrk, if_neg (show ¬(st.brk + roundWords (max (asizeOf n) 4096 / 4)
          ≤ st.maxHeap) from hok)])
      rw [hfail] at h
      exact absurd (congrArg Prod.fst h) (by simp)

theorem place_frame_general (m : Mem) (bp csize asize : Nat) (hbp : 8 ≤ bp)
    (hcs : GET_SIZE m (HDRP bp) = csize) (ha8 : asize % 8 = 0) (halo : 8 ≤ asize)
    (hle : asize ≤ csize)
    (hc8 : csize % 8 = 0) (hclo : 8 ≤ csize) (hc32 : csize < 2 ^ 32) :
    ∀ q, q < bp - 4 ∨ bp - 4 + csize ≤ q → place m bp asize q = m q := by
  intro q hq
  have hsub : sub64 csize asize = csize - asize := sub64_eq hle (by omega)
  have ha32 : asize + 1 < 2 ^ 32 := by omega
  by_cases hsplit : 2 * 8 ≤ sub64 csize asize
  · have hs16 : asize + 16 ≤ csize := by omega
    have e1 : FTRP (PUT m (HDRP bp) (PACK asize 1)) bp = bp + asize - 8 := by
      unfold FTRP
      rw [GET_SIZE_PUT_pack m (HDRP bp) asize 1 ha8 (by norm_num) ha32]
    have e2 : NEXT_BLKP (PUT (PUT m (HDRP bp) (PACK asize 1)) (bp + asize - 8)
        (PACK asize 1)) bp = bp + asize := by
      unfold NEXT_BLKP
      rw [GET_SIZE_PUT_outside _ _ _ _ (by unfold HDRP; omega),
        GET_SIZE_PUT_pack m (HDRP bp) asize 1 ha8 (by norm_num) ha32]
    have e3 : FTRP (PUT (PUT (PUT m (HDRP bp) (PACK asize 1)) (bp + asize - 8)
        (PACK asize 1)) (HDRP (bp + asize)) (PACK (csize - asize) 0)) (bp + asize)
        = bp + csize - 8 := by
      unfold FTRP
      rw [GET_SIZE_PUT_pack _ (HDRP (bp + asize)) (csize - asize) 0 (by omega)
        (by norm_num) (by omega)]
      omega
    simp only [place, hcs, hsub]
    rw [if_pos (show 2 * 8 ≤ csize - asize by omega), e1, e2, e3]
    rw [PUT_outside _ _ _ _ (by omega), PUT_outside _ _ _ _ (by unfold HDRP; omega),
      PUT_outside _ _ _ _ (by omega), PUT_outside _ _ _ _ (by unfold HDRP; omega)]
  · have e1 : FTRP (PUT m (HDRP bp) (PACK csize 1)) bp = bp + csize - 8 := by
      unfold FTRP
      rw [GET_SIZE_PUT_pack m (HDRP bp) csize 1 hc8 (by norm_num) (by omega)]
    simp only [place, hcs, hsub]
    rw [if_neg (show ¬(2 * 8 ≤ csize - asize) by omega), e1]
    rw [PUT_outside _ _ _ _ (by omega), PUT_outside _ _ _ _ (by unfold HDRP; omega)]

theorem decomp_compare {pre post pre0 post0 : List Blk} {b b0 : Blk}
    (h : pre ++ b :: post = pre0 ++ b0 :: post0) :
    (pre = pre0 ∧ b = b0 ∧ post = post0) ∨
    (∃ mid, pre0 = pre ++ b :: mid ∧ post = mid ++ b0 :: post0) ∨
    (∃ mid, pre = pre0 ++ b0 :: mid ∧ post0 = mid ++ b :: post) := by
  induction pre generalizing pre0 with
  | nil =>
    cases pre0 with
    | nil =>
      simp only [List.nil_append] at h
      exact Or.inl ⟨rfl, List.head_eq_of_cons_eq h, List.tail_eq_of_cons_eq h⟩
    | cons c pre0' =>
      simp only [List.nil_append, List.cons_append] at h
      have hb : b = c := List.head_eq_of_cons_eq h
      have hp : post = pre0' ++ b0 :: post0 := List.tail_eq_of_cons_eq h
      exact Or.inr (Or.inl ⟨pre0', by simp [hb], hp⟩)
  | cons a pre' ih =>
    cases pre0 with
    | nil =>
      simp only [List.nil_append, List.cons_append] at h
      have hb : a = b0 := List.head_eq_of_cons_eq h
      have hp : pre' ++ b :: post = post0 := List.tail_eq_of_cons_eq h
      exact Or.inr (Or.inr ⟨pre', by simp [hb], hp.symm⟩)
    | cons c pre0' =>
      simp only [List.cons_append] at h
      have hac : a = c := List.head_eq_of_cons_eq h
      have ht : pre' ++ b :: post = pre0' ++ b0 :: post0 := List.tail_eq_of_cons_eq h
      rcases ih ht with ⟨h1, h2, h3⟩ | ⟨mid, h1, h2⟩ | ⟨mid, h1, h2⟩
      · exact Or.inl ⟨by rw [hac, h1], h2, h3⟩
      · exact Or.inr (Or.inl ⟨mid, by rw [hac, h1]; rfl, h2⟩)
      · exact Or.inr (Or.inr ⟨mid, by rw [hac, h1]; rfl, h2⟩)

theorem sumSizes_lt_of_wf {st : AState} {bl : List Blk} (hw : wf st bl) :
    sumSizes bl < 2 ^ 32 := by
  obtain ⟨-, -, -, -, -, hbrk, hmx, hmx32⟩ := hw
  omega

theorem malloc_frames_alloc_block (st : AState) (bl pre post : List Blk) (bsz n : Nat)
    (hw : wf st bl) (hbl : bl = pre ++ ⟨bsz, true⟩ :: post)
    (hn : 1 ≤ n) (hover : n + 16 ≤ 2 ^ 64) :
    ∀ q, 12 + sumSizes pre ≤ q → q < 12 + sumSizes pre + bsz →
      (mm_malloc st n).2.mem q = st.mem q := by
  intro q hq1 hq2
  obtain ⟨ha8, ha16, hage, hale⟩ := asizeOf_spec n hn hover
  obtain ⟨hlp, hpro1, hpro2, hrepr, hepi, hbrk, hmx, hmx32⟩ := id hw
  have hsumlt : sumSizes bl < 2 ^ 32 := by omega
  have hsumbl : sumSizes bl = sumSizes pre + bsz + sumSizes post := by
    rw [hbl]
    simp only [sumSizes_append, sumSizes_cons, sumSizes_nil]
    omega
  have hbsz8 : 8 ≤ bsz ∧ bsz % 8 = 0 := by
    rw [hbl, reprSeg_append] at hrepr
    obtain ⟨-, h1, h2, -⟩ := hrepr
    exact ⟨h1, h2⟩
  cases hf : find_fit st (asizeOf n) with
  | some bp =>
    have hres := mm_malloc_eq_fit st n bp (by omega) hf
    rw [hres]
    show place st.mem bp (asizeOf n) q = st.mem q
    have hff : firstFit bl 16 (asizeOf n) = some bp := by
      rw [← find_fit_spec st bl _ hw, hf]
    obtain ⟨pre0, b0, post0, hbl0, hbp, hal0, hfit0⟩ := firstFit_decomp hff
    have hbl0' : pre ++ (⟨bsz, true⟩ : Blk) :: post = pre0 ++ b0 :: post0 :=
      hbl.symm.trans hbl0
    have hsum0 : sumSizes bl = sumSizes pre0 + b0.size + sumSizes post0 := by
      rw [hbl0]
      simp only [sumSizes_append, sumSizes_cons, sumSizes_nil]
      omega
    have hb0facts : 8 ≤ b0.size ∧ b0.size % 8 = 0 ∧
        GET st.mem (16 + sumSizes pre0 - 4) = hdrVal b0 := by
      have hr := hrepr
      rw [hbl0, reprSeg_append] at hr
      obtain ⟨-, h1, h2, h3, -⟩ := hr
      exact ⟨h1, h2, h3⟩
    have hcs : GET_SIZE st.mem (HDRP bp) = b0.size := by
      rw [hbp]
      show GET_SIZE st.mem (16 + sumSizes pre0 - 4) = b0.size
      exact GET_SIZE_hdr hb0facts.2.2 hb0facts.2.1
    have hframe := place_frame_general st.mem bp b0.size (asizeOf n)
      (by omega) hcs ha8 (by omega) hfit0 hb0facts.2.1 hb0facts.1 (by omega)
    apply hframe
    rcases decomp_compare hbl0' with ⟨h1, h2, h3⟩ | ⟨mid, h1, h2⟩ | ⟨mid, h1, h2⟩
    · exact absurd (h2 ▸ hal0) (by simp)
    · left
      have hs1 : sumSizes pre0 = sumSizes pre + bsz + sumSizes mid := by
        rw [h1]
        simp only [sumSizes_append, sumSizes_cons, sumSizes_nil]
        omega
      omega
    · right
      have hs1 : sumSizes pre = sumSizes pre0 + b0.size + sumSizes mid := by
        rw [h1]
        simp only [sumSizes_append, sumSizes_cons, sumSizes_nil]
        omega
      omega
  | none =>
    obtain ⟨hes2, heslt, hesround, hesge⟩ := malloc_extendsize_spec n
    by_cases hok : st.brk + roundWords (max (asizeOf n) 4096 / 4) ≤ st.maxHeap
    · obtain ⟨bp', st2, bl2, fs, he, hwf2, hbp2, hfs, hsum2, hfr2, hstruct⟩ :=
        extend_heap_spec st bl (max (asizeOf n) 4096 / 4) hw hes2 heslt hok
      have hres := mm_malloc_eq_extend st n bp' st2 (by omega) hf he
      rw [hres]
      show place st2.mem bp' (asizeOf n) q = st.mem q
      have hple : sumSizes pre + bsz ≤ sumSizes bl2 := by
        rcases hstruct with h | ⟨pb, hpb, hcat⟩
        · rw [h]
          omega
        · have hceq : pre ++ (⟨bsz, true⟩ : Blk) :: post = bl2 ++ pb :: [] := by
            rw [← hbl, hcat]
          rcases decomp_compare hceq with ⟨h1, h2, h3⟩ | ⟨mid, h1, h2⟩ | ⟨mid, h1, h2⟩
          · exact absurd (h2 ▸ hpb) (by simp)
          · have hs1 : sumSizes bl2 = sumSizes pre + bsz + sumSizes mid := by
              rw [h1]
              simp only [sumSizes_append, sumSizes_cons, sumSizes_nil]
              omega
            omega
          · exact absurd h2.symm (by simp)
      obtain ⟨hlp2, hp21, hp22, hrepr2, hepi2, hbrk2, hmx2, hmx232⟩ := id hwf2
      have hsum2lt : sumSizes (bl2 ++ [⟨fs, false⟩]) < 2 ^ 32 := by omega
      have hfs8 : 8 ≤ fs ∧ fs % 8 = 0 ∧
          GET st2.mem (16 + sumSizes bl2 - 4) = hdrVal ⟨fs, false⟩ := by
        rw [reprSeg_append] at hrepr2
        obtain ⟨-, h1a, h2a, h3a, -⟩ := hrepr2
        exact ⟨h1a, h2a, h3a⟩
      have hfslt : fs < 2 ^ 32 := by
        have : sumSizes (bl2 ++ [⟨fs, false⟩]) = sumSizes bl2 + fs := by
          simp only [sumSizes_append, sumSizes_cons, sumSizes_nil]
          omega
        omega
      have hcs2 : GET_SIZE st2.mem (HDRP bp') = fs := by
        rw [hbp2]
        show GET_SIZE st2.mem (16 + sumSizes bl2 - 4) = fs
        exact GET_SIZE_hdr hfs8.2.2 hfs8.2.1
      have hfit2 : asizeOf n ≤ fs := by
        rw [hesround] at hfs
        omega
      have hframe := place_frame_general st2.mem bp' fs (asizeOf n)
        (by omega) hcs2 ha8 (by omega) hfit2 hfs8.2.1 hfs8.1 hfslt
      rw [hframe q (Or.inl (by omega))]
      exact hfr2 q (by omega)
    · rw [malloc_growth_fail st n (by omega) hf (by
        simp only [mem_sbrk, if_neg (show ¬(st.brk + roundWords (max (asizeOf n) 4096 / 4)
          ≤ st.maxHeap) from hok)])]

/-- C5: on a consistent heap, `find_fit` implements the spec's first-fit
policy: it scans the block chain in address order from the first real
block to the epilogue and returns the payload address of the first block
that is free and holds at least `asize` bytes, or `none` when no block
fits; the scan performs no writes (it is a pure function of the state). -/
theorem find_fit_first_fit (st : AState) (bl : List Blk) (hw : wf st bl) :
    ∀ asize, find_fit st asize = firstFit bl 16 asize :=
  fun asize => find_fit_spec st bl asize hw

theorem find_fit_first_fit_witness :
    find_fit heapD 30 = firstFit [⟨24, false⟩, ⟨24, true⟩, ⟨4048, false⟩] 16 30 :=
  find_fit_first_fit heapD [⟨24, false⟩, ⟨24, true⟩, ⟨4048, false⟩] (by decide) 30

/-- C4: `place` splits exactly when the remainder `csize - asize` reaches
the 16-byte minimum block size: it then carves an allocated block of size
`asize` with fresh header and footer followed by a free block of size
`csize - asize` with its own tags; otherwise the whole `csize`-byte block
becomes allocated. -/
theorem place_splits_iff (m : Mem) (pre post : List Blk) (csize asize : Nat)
    (hrepr : reprSeg m 16 (pre ++ ⟨csize, false⟩ :: post))
    (ha8 : asize % 8 = 0) (ha16 : 16 ≤ asize) (hfit : asize ≤ csize) :
    (16 ≤ csize - asize →
      reprSeg (place m (16 + sumSizes pre) asize) 16
        (pre ++ ⟨asize, true⟩ :: ⟨csize - asize, false⟩ :: post)) ∧
    (csize - asize < 16 →
      reprSeg (place m (16 + sumSizes pre) asize) 16 (pre ++ ⟨csize, true⟩ :: post)) := by
  constructor
  · intro h
    exact (place_split_spec m pre post csize asize hrepr ha8 ha16 (by omega)).1
  · intro h
    exact (place_nosplit_spec m pre post csize asize hrepr hfit (by omega)).1

theorem place_splits_iff_witness :
    reprSeg (place heapA.mem (16 + sumSizes []) 24) 16
      ([] ++ ⟨24, true⟩ :: ⟨4096 - 24, false⟩ :: []) :=
  (place_splits_iff heapA.mem [] [] 4096 24 (by decide) (by decide) (by decide)
    (by decide)).1 (by decide)

/-- C3: `coalesce` follows the four-case boundary-tag rule on a consistent
heap: with both neighbours allocated it is a no-op (same block pointer,
memory untouched); a free successor is absorbed in place, size own plus
successor; a free predecessor absorbs the block, returning the
predecessor's address with size predecessor plus own; with both free the
three blocks merge at the predecessor's address with the summed size; in
every case the merged block's header and footer agree and carry the free
tag (the `reprSeg` fact about the resulting memory). -/
theorem coalesce_cases (st : AState) (bl : List Blk) (hw : wf st bl) :
    (∀ pre b post, bl = pre ++ b :: post → b.alloc = false →
      (pre = [] ∨ ∃ pre2 pb, pre = pre2 ++ [pb] ∧ pb.alloc = true) →
      (post = [] ∨ ∃ nb post2, post = nb :: post2 ∧ nb.alloc = true) →
      coalesce st.mem (16 + sumSizes pre) = (16 + sumSizes pre, st.mem)) ∧
    (∀ pre b nb post2, bl = pre ++ b :: nb :: post2 → b.alloc = false →
      nb.alloc = false →
      (pre = [] ∨ ∃ pre2 pb, pre = pre2 ++ [pb] ∧ pb.alloc = true) →
      (coalesce st.mem (16 + sumSizes pre)).1 = 16 + sumSizes pre ∧
        reprSeg (coalesce st.mem (16 + sumSizes pre)).2 16
          (pre ++ ⟨b.size + nb.size, false⟩ :: post2)) ∧
    (∀ pre2 pb b post, bl = (pre2 ++ [pb]) ++ b :: post → b.alloc = false →
      pb.alloc = false →
      (post = [] ∨ ∃ nb post3, post = nb :: post3 ∧ nb.alloc = true) →
      (coalesce st.mem (16 + sumSizes (pre2 ++ [pb]))).1 = 16 + sumSizes pre2 ∧
        reprSeg (coalesce st.mem (16 + sumSizes (pre2 ++ [pb]))).2 16
          (pre2 ++ ⟨pb.size + b.size, false⟩ :: post)) ∧
    (∀ pre2 pb b nb post3, bl = (pre2 ++ [pb]) ++ b :: nb :: post3 → b.alloc = false →
      pb.alloc = false → nb.alloc = false →
      (coalesce st.mem (16 + sumSizes (pre2 ++ [pb]))).1 = 16 + sumSizes pre2 ∧
        reprSeg (coalesce st.mem (16 + sumSizes (pre2 ++ [pb]))).2 16
          (pre2 ++ ⟨pb.size + b.size + nb.size, false⟩ :: post3)) := by
  obtain ⟨hlp, hpro1, hpro2, hrepr, hepi, hbrk, hmx, hmx32⟩ := id hw
  have htot : sumSizes bl < 2 ^ 32 := by omega
  refine ⟨?_, ?_, ?_, ?_⟩
  · intro pre b post hbl hbf hprevA hnextA
    subst hbl
    exact coalesce_keep st.mem pre b post hpro1 hpro2 hrepr hepi hbf hprevA hnextA
  · intro pre b nb post2 hbl hbf hnf hprevA
    subst hbl
    obtain ⟨hco, hrs, -⟩ := coalesce_next st.mem pre b nb post2 hpro1 hpro2 hrepr hbf hnf
      hprevA htot
    rw [hco]
    exact ⟨rfl, hrs⟩
  · intro pre2 pb b post hbl hbf hpbf hnextA
    subst hbl
    obtain ⟨hco, hrs, -⟩ := coalesce_prev st.mem pre2 pb b post hpro1 hpro2 hrepr hepi hbf
      hpbf hnextA htot
    rw [hco]
    exact ⟨rfl, hrs⟩
  · intro pre2 pb b nb post3 hbl hbf hpbf hnbf
    subst hbl
    obtain ⟨hco, hrs, -⟩ := coalesce_both st.mem pre2 pb b nb post3 hrepr hbf hpbf hnbf htot
    rw [hco]
    exact ⟨rfl, hrs⟩

theorem coalesce_cases_witness :
    coalesce heapD.mem (16 + sumSizes []) = (16 + sumSizes [], heapD.mem) :=
  (coalesce_cases heapD [⟨24, false⟩, ⟨24, true⟩, ⟨4048, false⟩] (by decide)).1
    [] ⟨24, false⟩ [⟨24, true⟩, ⟨4048, false⟩] rfl rfl (Or.inl rfl)
    (Or.inr ⟨⟨24, true⟩, [⟨4048, false⟩], rfl, rfl⟩)

/-- C9: every non-null pointer handed out by `mm_malloc` or `mm_realloc`
on a consistent heap is 8-byte aligned: the padding word and prologue put
the first payload at offset 16 and every block size is a multiple of 8,
so payload addresses stay congruent to 0 modulo 8. -/
theorem alloc_pointers_aligned (st : AState) (bl : List Blk) (hw : wf st bl) :
    (∀ n bp st', mm_malloc st n = (some bp, st') → bp % 8 = 0) ∧
    (∀ ptr n bp st', mm_realloc st ptr n = (some bp, st') → bp % 8 = 0) := by
  have hm : ∀ n bp st', mm_malloc st n = (some bp, st') → bp % 8 = 0 :=
    fun n bp st' h => mm_malloc_ptr st bl n bp st' hw h
  refine ⟨hm, ?_⟩
  intro ptr n bp st' h
  cases ptr with
  | none => exact hm n bp st' h
  | some oldp =>
    by_cases h0 : n = 0
    · subst h0
      have hred : mm_realloc st (some oldp) 0 = (none, mm_free st oldp) := rfl
      rw [hred] at h
      exact absurd (congrArg Prod.fst h) (by simp)
    · cases hm2 : mm_malloc st n with
      | mk res st1 =>
        cases res with
        | none =>
          simp only [mm_realloc, if_neg h0, hm2] at h
          exact absurd (congrArg Prod.fst h) (by simp)
        | some np =>
          simp only [mm_realloc, if_neg h0, hm2] at h
          have hnp : np = bp := by
            have h2 := congrArg Prod.fst h
            simpa using h2
          exact hnp ▸ hm n np st1 hm2

theorem alloc_pointers_aligned_witness : (16 : Nat) % 8 = 0 :=
  (alloc_pointers_aligned heapA [⟨4096, false⟩] (by decide)).1 16 16
    (mm_malloc heapA 16).2
    (by rw [(by decide : (some 16 : Option Nat) = (mm_malloc heapA 16).1)])

/-- C1 (amended): a successful `allocate(n)` with `0 < n` and no `size_t`
wraparound (`n + 16 ≤ 2^64`) returns a pointer whose block header and
footer both hold the same word `PACK(s, 1)` — identical size, allocated
bit set — where the size `s` is the adjusted size `asizeOf n` or
`asizeOf n + 8` (whole-block placement when the remainder is below the
16-byte minimum); in particular `n + 8 ≤ s` and `s` is a multiple of 8. -/
theorem malloc_block_tags (st : AState) (bl : List Blk) (n bp : Nat) (st' : AState)
    (hw : wf st bl) (hn : 1 ≤ n) (hover : n + 16 ≤ 2 ^ 64)
    (h : mm_malloc st n = (some bp, st')) :
    ∃ s, GET st'.mem (HDRP bp) = PACK s 1 ∧ GET st'.mem (bp + s - 8) = PACK s 1 ∧
      (s = asizeOf n ∨ s = asizeOf n + 8) ∧ n + 8 ≤ s ∧ s % 8 = 0 := by
  rcases mm_malloc_spec st bl n hw hn hover with hnone |
    ⟨bp0, st0, bl', pre, post, s, heq, hwf', hbl', hbp0, hsor, hns⟩
  · rw [h] at hnone
    exact absurd hnone (by simp)
  · rw [h] at heq
    injection heq with h1 h2
    injection h1 with h3
    rw [← h2] at hwf'
    rw [← h3] at hbp0
    rw [hbl'] at hwf'
    obtain ⟨-, -, -, hrepr', hepi', hbrk', hmx', hmx32'⟩ := id hwf'
    have hslt : s < 2 ^ 32 := by
      have hs : sumSizes (pre ++ (⟨s, true⟩ : Blk) :: post)
          = sumSizes pre + s + sumSizes post := by
        simp only [sumSizes_append, sumSizes_cons, sumSizes_nil]
        omega
      omega
    rw [reprSeg_append] at hrepr'
    obtain ⟨-, h8a, hm8a, hhdr, hftr, -⟩ := hrepr'
    have hm8 : s % 8 = 0 := hm8a
    have hpack : PACK s 1 = hdrVal (⟨s, true⟩ : Blk) := by
      rw [PACK_eq s 1 hm8 (by norm_num)]
      simp [hdrVal]
    refine ⟨s, ?_, ?_, hsor, hns, hm8⟩
    · rw [hpack, hbp0]
      show GET st'.mem (16 + sumSizes pre - 4) = hdrVal ⟨s, true⟩
      exact hhdr
    · rw [hpack, hbp0]
      show GET st'.mem (16 + sumSizes pre + s - 8) = hdrVal ⟨s, true⟩
      exact hftr

theorem malloc_block_tags_witness :
    ∃ s, GET (mm_malloc heapA 16).2.mem (HDRP 16) = PACK s 1 ∧
      GET (mm_malloc heapA 16).2.mem (16 + s - 8) = PACK s 1 ∧
      (s = asizeOf 16 ∨ s = asizeOf 16 + 8) ∧ 16 + 8 ≤ s ∧ s % 8 = 0 :=
  malloc_block_tags heapA [⟨4096, false⟩] 16 16 (mm_malloc heapA 16).2 (by decide)
    (by norm_num) (by norm_num)
    (by rw [(by decide : (some 16 : Option Nat) = (mm_malloc heapA 16).1)])

/-- C10 (amended): without `size_t` wraparound, the block a successful
`allocate(n)` hands out has encoded size exactly the adjusted size
`asizeOf n` or exactly `asizeOf n + 8`: sizes are multiples of 8 and the
split threshold is 16, so the residue kept inside an allocated block
never exceeds 8 bytes. -/
theorem malloc_residual_dichotomy (st : AState) (bl : List Blk) (n bp : Nat) (st' : AState)
    (hw : wf st bl) (hn : 1 ≤ n) (hover : n + 16 ≤ 2 ^ 64)
    (h : mm_malloc st n = (some bp, st')) :
    ∃ s, GET_SIZE st'.mem (HDRP bp) = s ∧ (s = asizeOf n ∨ s = asizeOf n + 8) ∧
      s - asizeOf n ≤ 8 := by
  rcases mm_malloc_spec st bl n hw hn hover with hnone |
    ⟨bp0, st0, bl', pre, post, s, heq, hwf', hbl', hbp0, hsor, hns⟩
  · rw [h] at hnone
    exact absurd hnone (by simp)
  · rw [h] at heq
    injection heq with h1 h2
    injection h1 with h3
    rw [← h2] at hwf'
    rw [← h3] at hbp0
    rw [hbl'] at hwf'
    obtain ⟨-, -, -, hrepr', -⟩ := id hwf'
    rw [reprSeg_append] at hrepr'
    obtain ⟨-, h8a, hm8a, hhdr, -⟩ := hrepr'
    have hm8 : s % 8 = 0 := hm8a
    refine ⟨s, ?_, hsor, by omega⟩
    rw [hbp0]
    show GET_SIZE st'.mem (16 + sumSizes pre - 4) = s
    exact GET_SIZE_hdr hhdr hm8

theorem malloc_residual_dichotomy_witness :
    ∃ s, GET_SIZE (mm_malloc heapA 16).2.mem (HDRP 16) = s ∧
      (s = asizeOf 16 ∨ s = asizeOf 16 + 8) ∧ s - asizeOf 16 ≤ 8 :=
  malloc_residual_dichotomy heapA [⟨4096, false⟩] 16 16 (mm_malloc heapA 16).2 (by decide)
    (by norm_num) (by norm_num)
    (by rw [(by decide : (some 16 : Option Nat) = (mm_malloc heapA 16).1)])

/-- C6: `mm_realloc` composes the public operations exactly as specified.
A `NULL` pointer makes it behave as `mm_malloc(size)`; `size == 0` makes
it behave as `mm_free(ptr)` returning `NULL`; otherwise it allocates
afresh, copies exactly `min(size, old block size - 8)` bytes into the new
payload, frees the old block and returns the new pointer — and the copied
bytes are the old payload's original contents, which the intervening
allocation left untouched.  A failed allocation returns `NULL` with the
heap exactly as before (the old block untouched). -/
theorem realloc_composes (st : AState) (bl pre post : List Blk) (bsz n p : Nat)
    (hw : wf st bl) (hbl : bl = pre ++ ⟨bsz, true⟩ :: post) (hp : p = 16 + sumSizes pre)
    (hn : 1 ≤ n) (hover : n + 16 ≤ 2 ^ 64) :
    (∀ sz, mm_realloc st none sz = mm_malloc st sz) ∧
    (mm_realloc st (some p) 0 = (none, mm_free st p)) ∧
    (mm_realloc st (some p) n =
      match mm_malloc st n with
      | (none, _) => (none, st)
      | (some np, st1) =>
        (some np,
          mm_free { st1 with mem := memcpyBytes st1.mem np p (min n (bsz - 8)) } p)) ∧
    (∀ i, i < min n (bsz - 8) → (mm_malloc st n).2.mem (p + i) = st.mem (p + i)) := by
  obtain ⟨hlp, hpro1, hpro2, hrepr, hepi, hbrk, hmx, hmx32⟩ := id hw
  have hbszf : 8 ≤ bsz ∧ bsz % 8 = 0 ∧
      GET st.mem (16 + sumSizes pre - 4) = hdrVal ⟨bsz, true⟩ := by
    have hr := hrepr
    rw [hbl, reprSeg_append] at hr
    obtain ⟨-, h1, h2, h3, -⟩ := hr
    exact ⟨h1, h2, h3⟩
  have hb8 : 8 ≤ bsz := hbszf.1
  have hbm8 : bsz % 8 = 0 := hbszf.2.1
  have hszlt : bsz < 2 ^ 32 := by
    have hs : sumSizes bl = sumSizes pre + bsz + sumSizes post := by
      rw [hbl]
      simp only [sumSizes_append, sumSizes_cons, sumSizes_nil]
      omega
    omega
  refine ⟨fun _ => rfl, rfl, ?_, ?_⟩
  · cases hm : mm_malloc st n with
    | mk res st1 =>
      cases res with
      | none =>
        have h1 : st1 = st := by
          have h2 := malloc_fail_state st n (by rw [hm])
          rw [hm] at h2
          exact h2
        simp only [mm_realloc, if_neg (show ¬ n = 0 by omega), hm, h1]
      | some np =>
        have hhdr : GET st1.mem (p - 4) = hdrVal ⟨bsz, true⟩ := by
          have hmem1 : st1.mem = (mm_malloc st n).2.mem := by rw [hm]
          rw [hmem1]
          rw [GET_congr st.mem (mm_malloc st n).2.mem (p - 4)
            (fun r hr1 hr2 => malloc_frames_alloc_block st bl pre post bsz n hw hbl hn
              hover r (by omega) (by omega))]
          rw [show p - 4 = 16 + sumSizes pre - 4 by omega]
          exact hbszf.2.2
        have hgs : GET_SIZE st1.mem (HDRP p) = bsz := by
          show GET_SIZE st1.mem (p - 4) = bsz
          exact GET_SIZE_hdr hhdr hbm8
        have hsub : sub64 (GET_SIZE st1.mem (HDRP p)) 8 = bsz - 8 := by
          rw [hgs]
          exact sub64_eq (by omega) (by omega)
        have hmin : (if n < bsz - 8 then n else bsz - 8) = min n (bsz - 8) := by
          rcases Nat.lt_or_ge n (bsz - 8) with hc | hc
          · rw [if_pos hc, Nat.min_eq_left (le_of_lt hc)]
          · rw [if_neg (by omega), Nat.min_eq_right hc]
        simp only [mm_realloc, if_neg (show ¬ n = 0 by omega), hm]
        simp only [hsub, hmin]
  · intro i hi
    have hle : min n (bsz - 8) ≤ bsz - 8 := min_le_right _ _
    exact malloc_frames_alloc_block st bl pre post bsz n hw hbl hn hover (p + i)
      (by omega) (by omega)

theorem realloc_composes_witness :
    mm_realloc heapB (some 16) 0 = (none, mm_free heapB 16) :=
  (realloc_composes heapB [⟨24, true⟩, ⟨4072, false⟩] [] [⟨4072, false⟩] 24 16 16
    (by decide) rfl (by decide) (by norm_num) (by norm_num)).2.1

end MM
